import Mathlib

/-!
Verification of the `advent_utils` 2D spatial store against its specification.

The Go sources are shallowly embedded: machine integers become `Int`
(no overflow is reachable in the scoped claims), Go runes become `Char`,
Go maps become association lists built only through the embedded
operations (so keys stay distinct), and fallible / panicking code paths
return `Option` or an explicit outcome type.
-/

namespace AdventUtils

/-- Embeds `utils.Point[T]` (points.go) at `T = int`, as an `Int` pair. -/
@[ext]
structure Pt where
  x : Int
  y : Int
deriving DecidableEq, Repr

/-- Embeds `utils.Rectangle[T]` (points.go): two corner points, not
necessarily ordered. -/
structure Rect where
  p1 : Pt
  p2 : Pt
deriving DecidableEq, Repr

/-- Embeds `Rectangle.OrderCoords` (points.go lines 75-82) as the value the
body computes on its receiver copy.  In Go the receiver is a value, so the
statement call `r.OrderCoords()` leaves the caller's `r` unchanged; call
sites that invoke it for effect therefore receive no canonicalization. -/
def Rect.OrderCoords (r : Rect) : Rect :=
  let (x1, x2) := if r.p1.x > r.p2.x then (r.p2.x, r.p1.x) else (r.p1.x, r.p2.x)
  let (y1, y2) := if r.p1.y > r.p2.y then (r.p2.y, r.p1.y) else (r.p1.y, r.p2.y)
  ⟨⟨x1, y1⟩, ⟨x2, y2⟩⟩

/-- The Go zero value of `Rectangle[int]`: all coordinates zero. -/
def Rect.zero : Rect := ⟨⟨0, 0⟩, ⟨0, 0⟩⟩

/-- Embeds `Rectangle.Intersection` (points.go lines 98-118).  The two
`OrderCoords()` statement calls in the source mutate only value-receiver
copies, so they have no effect on `r` and `v`; the function then clamps
`r`'s corners against `v`'s corners exactly as the source does and returns
the zero rectangle when the clamped low exceeds the clamped high. -/
def Rect.Intersection (r v : Rect) : Rect :=
  let p1x := if r.p1.x < v.p1.x then v.p1.x else r.p1.x
  let p1y := if r.p1.y < v.p1.y then v.p1.y else r.p1.y
  let p2x := if r.p2.x > v.p2.x then v.p2.x else r.p2.x
  let p2y := if r.p2.y > v.p2.y then v.p2.y else r.p2.y
  if p1x > p2x ∨ p1y > p2y then Rect.zero
  else ⟨⟨p1x, p1y⟩, ⟨p2x, p2y⟩⟩

/-- The intersection the specification describes ("canonicalize both, take
component-wise max of lows and min of highs"): both operands are passed
through `OrderCoords` before clamping. -/
def Rect.intersectionSpec (r v : Rect) : Rect :=
  Rect.Intersection r.OrderCoords v.OrderCoords

/-- Embeds `Point.Within` (points.go lines 50-67).  Unlike `OrderCoords`,
`Within` canonicalizes correctly: it swaps the per-axis bounds on local
copies and then tests against those copies. -/
def Pt.Within (p : Pt) (r : Rect) : Bool :=
  let (xlo, xhi) := if r.p1.x > r.p2.x then (r.p2.x, r.p1.x) else (r.p1.x, r.p2.x)
  let (ylo, yhi) := if r.p1.y > r.p2.y then (r.p2.y, r.p1.y) else (r.p1.y, r.p2.y)
  decide (xlo ≤ p.x) && decide (p.x ≤ xhi) && decide (ylo ≤ p.y) && decide (p.y ≤ yhi)

/-! ### Sparse backend: `utils.Map2D` (map2d.go)

A Go map from `Point` to values is embedded as an association list whose
iteration order stands in for Go's (unspecified) map order.  All states in
the claims are built through the embedded operations starting from the
empty map, so keys stay pairwise distinct (`M2.Wf`). -/

/-- Embeds the `data` map of `utils.Map2D` (map2d.go line 12). -/
abbrev M2 (V : Type) : Type := List (Pt × V)

namespace M2

variable {V : Type}

/-- The zero value of `Map2D`: a nil map. -/
def empty : M2 V := []

/-- Embeds `Map2D.Get` (map2d.go lines 37-48): `none` plays the Go result
`(zero, false)`, `some v` plays `(v, true)`. -/
def get : M2 V → Pt → Option V
  | [], _ => none
  | e :: m, p => if e.1 = p then some e.2 else get m p

/-- Embeds `Map2D.Set` (map2d.go lines 29-34): overwrite the key if
present, otherwise add it. -/
def set : M2 V → Pt → V → M2 V
  | [], p, v => [(p, v)]
  | e :: m, p, v => if e.1 = p then (p, v) :: m else e :: set m p v

/-- Embeds `Map2D.Delete` (map2d.go lines 51-56): the key is removed
entirely. -/
def del (m : M2 V) (p : Pt) : M2 V :=
  m.filter (fun e => decide (e.1 ≠ p))

/-- Embeds `Map2D.GetOrDefault` (map2d.go lines 65-72). -/
def getD (m : M2 V) (p : Pt) (dv : V) : V :=
  (get m p).getD dv

/-- Embeds `Map2D.Copy` (map2d.go lines 119-126): a fresh map filled by
iterating the source and `Set`ting each entry. -/
def copy (m : M2 V) : M2 V :=
  m.foldl (fun acc e => set acc e.1 e.2) empty

/-- Key distinctness: the invariant every Go map state satisfies and every
reachable association-list state of this embedding preserves. -/
def Wf (m : M2 V) : Prop :=
  m.Pairwise (fun a b => a.1 ≠ b.1)

instance (m : M2 V) : Decidable (Wf m) :=
  inferInstanceAs (Decidable (List.Pairwise (fun a b : Pt × V => a.1 ≠ b.1) m))


end M2

/-! ### Dense backend: `board.FlatBoard` (board_storage.go)

Values are `Char`, matching the `rune`-specific Go type.  `Set` (and hence
`Delete`) panic in Go when the index is out of range, so they return
`Option` here.  `Get`, `GetOrDefault` and `Iterate` read `len(fb.board[0])`,
which in Go panics on a board with no rows; every board in the claims has
`height ≥ 1`, and the embedding uses an empty default row there. -/

structure FlatBoard where
  board : List (List Char)
  emptyVal : Char
deriving DecidableEq, Repr

namespace FlatBoard

/-- Embeds `FlatBoard.Allocate` (board_storage.go lines 25-35): a
`height × width` grid filled with `emptyVal`.  Negative extents run the Go
loops zero times, hence `Int.toNat`. -/
def Allocate (width height : Int) (emptyVal : Char) : FlatBoard :=
  ⟨List.replicate height.toNat (List.replicate width.toNat emptyVal), emptyVal⟩

/-- The row-0 width `len(fb.board[0])` used by the Go bounds checks. -/
def width (fb : FlatBoard) : Nat := (fb.board.headD []).length

/-- The height `len(fb.board)`. -/
def height (fb : FlatBoard) : Nat := fb.board.length

/-- Embeds `FlatBoard.Get` (board_storage.go lines 51-56): an in-range
read yields the cell (with `found = true`, here `some`); out of range the
Go code returns `(0, false)`, here `none`. -/
def Get (fb : FlatBoard) (p : Pt) : Option Char :=
  if 0 ≤ p.x ∧ p.x < (fb.width : Int) ∧ 0 ≤ p.y ∧ p.y < (fb.height : Int) then
    some ((fb.board.getD p.y.toNat []).getD p.x.toNat fb.emptyVal)
  else none

/-- Embeds `FlatBoard.GetOrDefault` (board_storage.go lines 62-67). -/
def GetOrDefault (fb : FlatBoard) (p : Pt) (dv : Char) : Char :=
  if 0 ≤ p.x ∧ p.x < (fb.width : Int) ∧ 0 ≤ p.y ∧ p.y < (fb.height : Int) then
    (fb.board.getD p.y.toNat []).getD p.x.toNat fb.emptyVal
  else dv

/-- Embeds `FlatBoard.Set` (board_storage.go lines 47-49):
`fb.board[p.Y][p.X] = v`, which panics (`none`) unless `p.Y` indexes a row
and `p.X` indexes that row. -/
def Set (fb : FlatBoard) (p : Pt) (v : Char) : Option FlatBoard :=
  if 0 ≤ p.y ∧ p.y.toNat < fb.board.length ∧ 0 ≤ p.x ∧
      p.x.toNat < (fb.board.getD p.y.toNat []).length then
    some ⟨fb.board.set p.y.toNat ((fb.board.getD p.y.toNat []).set p.x.toNat v), fb.emptyVal⟩
  else none

/-- Embeds `FlatBoard.Delete` (board_storage.go lines 58-60): overwrite
with the stored empty value. -/
def Delete (fb : FlatBoard) (p : Pt) : Option FlatBoard :=
  fb.Set p fb.emptyVal

/-- The visit list of `FlatBoard.Iterate` (board_storage.go lines 69-77)
for a visitor that never stops early: row-major over the full grid. -/
def entries (fb : FlatBoard) : List (Pt × Char) :=
  (List.range fb.height).flatMap fun (y : Nat) =>
    (List.range fb.width).map fun (x : Nat) =>
      (⟨(x : Int), (y : Int)⟩, (fb.board.getD y []).getD x fb.emptyVal)

/-- Embeds `FlatBoard.CopyToBoardStorage` (board_storage.go lines 83-94):
rebuilds the grid cell by cell (`x` bounded by the row-0 width, `y` by the
row count, exactly as the Go loops are). -/
def CopyToBoardStorage (fb : FlatBoard) : FlatBoard :=
  ⟨(List.range fb.height).map fun y =>
      (List.range fb.width).map fun x => (fb.board.getD y []).getD x fb.emptyVal,
    fb.emptyVal⟩

/-- `IterateOrdered` (board_storage.go lines 79-81) just calls `Iterate`,
whose row-major order is already deterministic for this backend. -/
def entriesOrdered (fb : FlatBoard) : List (Pt × Char) := fb.entries

end FlatBoard

/-! ### Copy-on-write overlay backend: `board.CopyOnWriteStorage`
(unnamed part_006), instantiated at a `FlatBoard` underlying. -/

structure Cow where
  underlying : FlatBoard
  overlay : M2 Char
  emptyVal : Char
deriving DecidableEq, Repr

namespace Cow

/-- Embeds `CopyOnWriteStorage.Set` (part_006 lines 29-31): writes go to
the overlay only. -/
def Set (s : Cow) (p : Pt) (v : Char) : Cow :=
  { s with overlay := M2.set s.overlay p v }

/-- Embeds `CopyOnWriteStorage.Get` (part_006 lines 34-40): overlay first,
then the underlying. -/
def Get (s : Cow) (p : Pt) : Option Char :=
  (M2.get s.overlay p).or (s.underlying.Get p)

/-- Embeds `CopyOnWriteStorage.Delete` (part_006 lines 44-46): a tombstone
write of the empty value into the overlay. -/
def Delete (s : Cow) (p : Pt) : Cow :=
  s.Set p s.emptyVal

/-- Embeds `CopyOnWriteStorage.GetOrDefault` (part_006 lines 50-57). -/
def GetOrDefault (s : Cow) (p : Pt) (dv : Char) : Char :=
  (s.Get p).getD dv

/-- One step of the `Iterate` walk over the underlying (part_006 lines
63-73): on an overlay hit, visit the overlay value and mark the key
consumed in the overlay copy; otherwise visit the underlying value. -/
def iterStep (overlay : M2 Char) (acc : M2 Char × List (Pt × Char)) (e : Pt × Char) :
    M2 Char × List (Pt × Char) :=
  match M2.get overlay e.1 with
  | some vo => (M2.del acc.1 e.1, acc.2 ++ [(e.1, vo)])
  | none => (acc.1, acc.2 ++ [e])

/-- The visit list of `CopyOnWriteStorage.Iterate` (part_006 lines 61-75)
for a visitor that never stops early: the underlying walk with overlay
substitution, then the unconsumed remainder of the overlay copy. -/
def Iterate (s : Cow) : List (Pt × Char) :=
  let r := s.underlying.entries.foldl (iterStep s.overlay) (M2.copy s.overlay, [])
  r.2 ++ r.1

/-- The visit list of `CopyOnWriteStorage.IterateOrdered` (part_006 lines
79-86), exactly as written: copy the underlying, re-`Set` the underlying's
own entries into the copy (`s.underlying.Iterate`, not `s.Iterate`), and
walk the copy in order.  The overlay is never consulted. -/
def IterateOrdered (s : Cow) : Option (List (Pt × Char)) :=
  (s.underlying.entries.foldlM (fun acc e => FlatBoard.Set acc e.1 e.2)
      s.underlying.CopyToBoardStorage).map FlatBoard.entriesOrdered

end Cow

/-- A concrete overlay state: a 1×1 underlying whose only cell holds `B`,
with an overlay that overrides that cell to `A` and adds an overlay-only
point `(5,7) ↦ C`. -/
def cowExample : Cow :=
  ⟨⟨[['B']], '.'⟩, [(⟨0, 0⟩, 'A'), (⟨5, 7⟩, 'C')], '.'⟩


/-! ### Board facade: `board.Board` (board.go), over the default sparse
`board.Map2D` storage. -/

/-- Modelled from the spec: `board.Map2D` (the `BoardStorage` wrapper of
`utils.Map2D` that the `board` package instantiates by default) is not
under `src/`; spec section 4.4 says its `Allocate` "simply resets to an
empty mapping (width/height are advisory only — no space is reserved)". -/
def M2.allocate {V : Type} (width height : Int) (emptyVal : V) : M2 V :=
  let _ := width
  let _ := height
  let _ := emptyVal
  ([] : M2 V)

/-- Embeds `board.Board` / `BoardOptions` (board.go lines 22-33) with the
default sparse storage.  The nilable Go function fields become `Option`s. -/
structure Board (V : Type) where
  storage : M2 V
  bounds : Option Rect
  emptyVal : V
  convFunc : Option (Char → V)
  compFunc : Option (V → V → Bool)

/-- Outcome of `Board.FromStrings`: the Go `error` results plus the panic
on an empty input slice (`len(s[0])` faults before anything runs). -/
inductive FSOut where
  | ok
  | errConvMissing
  | errNonUniform
  | panicEmptyInput
  | panicNilComp
deriving DecidableEq, Repr

namespace Board

variable {V : Type}

/-- Embeds `Board.Get` (board.go lines 310-312): storage `GetOrDefault`
with the empty value. -/
def Get (b : Board V) (p : Pt) : V :=
  M2.getD b.storage p b.emptyVal

/-- The inner `x` loop of `FromStrings` (board.go lines 186-191): decode
each symbol, write it unless it compares equal to the empty value.  A nil
`compFunc` would make the Go code panic at the first cell (`none`). -/
def ingestRow (conv : Char → V) (comp : Option (V → V → Bool)) (emptyVal : V) :
    M2 V → List Char → Int → Int → Option (M2 V)
  | st, [], _, _ => some st
  | st, c :: cs, x, y =>
    match comp with
    | none => none
    | some cf =>
      ingestRow conv comp emptyVal
        (if cf (conv c) emptyVal then st else M2.set st ⟨x, y⟩ (conv c)) cs (x + 1) y

/-- The `y` loop of `FromStrings` (board.go lines 182-192): check each
row's length against the first row's before ingesting it; on a mismatch
return the error immediately, keeping whatever has been written so far. -/
def ingestRows (conv : Char → V) (comp : Option (V → V → Bool)) (emptyVal : V) (w : Nat) :
    M2 V → List (List Char) → Int → FSOut × M2 V
  | st, [], _ => (.ok, st)
  | st, r :: rs, y =>
    if r.length ≠ w then (.errNonUniform, st)
    else
      match ingestRow conv comp emptyVal st r 0 y with
      | none => (.panicNilComp, st)
      | some st2 => ingestRows conv comp emptyVal w st2 rs (y + 1)

/-- Embeds `Board.FromStrings` (board.go lines 176-198): conversion-func
check, `Allocate` on the storage, row ingestion, and only on full success
the bounds assignment.  On any error the partially-mutated storage is kept
and the bounds are untouched, exactly as in the Go code. -/
def FromStrings (b : Board V) (s : List (List Char)) : FSOut × Board V :=
  match b.convFunc with
  | none => (.errConvMissing, b)
  | some conv =>
    match s with
    | [] => (.panicEmptyInput, b)
    | r0 :: _ =>
      let st0 : M2 V := M2.allocate (r0.length : Int) (s.length : Int) b.emptyVal
      let res := ingestRows conv b.compFunc b.emptyVal r0.length st0 s 0
      if res.1 = .ok then
        (.ok, { b with
                  storage := res.2
                  bounds := some ⟨⟨0, 0⟩, ⟨(r0.length : Int) - 1, (s.length : Int) - 1⟩⟩ })
      else (res.1, { b with storage := res.2 })

/-- The change list collected by `Board.Transform` (board.go lines
162-169), in storage iteration order; a nil `compFunc` panics (`none`) at
the first visited cell. -/
def collectChanges (comp : Option (V → V → Bool)) (t : Pt → V → V) :
    List (Pt × V) → Option (List (Pt × V))
  | [] => some []
  | e :: m =>
    match comp with
    | none => none
    | some cf =>
      (collectChanges comp t m).map fun chs =>
        (if cf (t e.1 e.2) e.2 then [] else [(e.1, t e.1 e.2)]) ++ chs

/-- Embeds `Board.Transform` (board.go lines 157-173): visit every
populated cell collecting changed values, then apply all writes. -/
def Transform (b : Board V) (t : Pt → V → V) : Option (Board V) :=
  (collectChanges b.compFunc t b.storage).map fun chs =>
    { b with storage := chs.foldl (fun st c => M2.set st c.1 c.2) b.storage }

/-- Embeds `Board.Copy` (board.go lines 389-406): copies the storage, the
empty value, and (a fresh rectangle equal to) the bounds.  `convFunc` and
`compFunc` are left at their zero value, nil. -/
def Copy (b : Board V) : Board V :=
  { storage := M2.copy b.storage
    bounds := b.bounds
    emptyVal := b.emptyVal
    convFunc := none
    compFunc := none }

/-- Embeds `Board.Contains` (board.go lines 302-307): vacuously true
without bounds, otherwise `Point.Within`. -/
def Contains (b : Board V) (p : Pt) : Bool :=
  match b.bounds with
  | none => true
  | some r => p.Within r

/-- Embeds `Board.Cardinals` (board.go lines 452-464) for the four
cardinal offsets, filtering off-board neighbors unless asked to keep
them. -/
def Cardinals (b : Board V) (p : Pt) (includeOffBoard : Bool) : List Pt :=
  ([⟨-1, 0⟩, ⟨1, 0⟩, ⟨0, -1⟩, ⟨0, 1⟩] : List Pt).filterMap fun d =>
    let np : Pt := ⟨p.x + d.x, p.y + d.y⟩
    if includeOffBoard || b.Contains np then some np else none

end Board

/-- The inclusive integer range `lo..hi` (empty when `hi < lo`),
mirroring the Go `for` loops over bound coordinates. -/
def intRange (lo hi : Int) : List Int :=
  (List.range (hi + 1 - lo).toNat).map fun i => lo + Int.ofNat i

/-- The visit order of `Board.IterateBounds` (board.go lines 374-386):
row-major over the canonicalized bounds. -/
def boundsSeq (r : Rect) : List Pt :=
  let r2 := Rect.OrderCoords r
  (intRange r2.p1.y r2.p2.y).flatMap fun y =>
    (intRange r2.p1.x r2.p2.x).map fun x => (⟨x, y⟩ : Pt)

/-- The BFS loop of `Board.Search` (board.go lines 482-499), with an
explicit iteration budget standing in for the Go `for len(open) > 0` loop
(each iteration pops one queue element; the budget used below is proved
sufficient).  A popped point already visited is skipped; otherwise it is
recorded and its not-yet-visited neighbors are enqueued. -/
def searchAux (neighbors : Pt → List Pt) : Nat → List Pt → List Pt → List Pt
  | 0, _, visited => visited
  | _ + 1, [], visited => visited
  | n + 1, cur :: rest, visited =>
    if cur ∈ visited then searchAux neighbors n rest visited
    else
      searchAux neighbors n
        (rest ++ (neighbors cur).filter fun q => decide (¬ q ∈ visited ++ [cur]))
        (visited ++ [cur])

/-- Embeds `Board.Search` (board.go lines 482-499): BFS from `start`
collecting the visited set (as a duplicate-free list). -/
def Board.Search {V : Type} (b : Board V) (start : Pt)
    (neighbors : Pt → List Pt) (fuel : Nat) : List Pt :=
  let _ := b
  searchAux neighbors fuel [start] []

/-- The neighbor closure `FindRegions` passes to `Search` (board.go lines
515-523): in-bounds cardinal neighbors whose value compares equal to the
current point's value. -/
def Board.regionNeighbors {V : Type} (b : Board V) (comp : V → V → Bool) (pn : Pt) : List Pt :=
  (b.Cardinals pn false).filter fun cpn => comp (b.Get pn) (b.Get cpn)

/-- The per-point body of the `FindRegions` loop (board.go lines 508-528),
on an accumulator of (already-assigned points, regions so far): skip a
point already assigned to a region, skip an empty-valued point unless
`includeEmptyVal`, and otherwise flood-fill its region and record it. -/
def Board.regStep {V : Type} (b : Board V) (includeEmptyVal : Bool)
    (comp : V → V → Bool) (fuel : Nat) (acc : List Pt × List (List Pt))
    (p : Pt) : List Pt × List (List Pt) :=
  if p ∈ acc.1 then acc
  else if (!includeEmptyVal) && comp (b.Get p) b.emptyVal then acc
  else
    let reg := b.Search p (b.regionNeighbors comp) fuel
    (acc.1 ++ reg, acc.2 ++ [reg])

/-- Embeds `Board.FindRegions` (board.go lines 502-531): panic (`none`) on
a nil `compFunc`; otherwise walk the bounds row-major, and for every point
neither already assigned nor (unless included) empty-valued, flood-fill
its equal-value region and record it. -/
def Board.FindRegions {V : Type} (b : Board V) (includeEmptyVal : Bool) :
    Option (List (List Pt)) :=
  match b.compFunc with
  | none => none
  | some comp =>
    match b.bounds with
    | none => some []
    | some r =>
      let pts := boundsSeq r
      let fuel := 5 * pts.length + 5
      let res := pts.foldl (b.regStep includeEmptyVal comp fuel)
        (([] : List Pt), ([] : List (List Pt)))
      some res.2

/-- A fresh `RuneBoard` (board.go lines 88-106): sparse storage, no
bounds, empty value `.`, identity byte decoder, rune equality. -/
def runeBoardNew : Board Char :=
  ⟨[], none, '.', some (fun c => c), some (fun a b => decide (a = b))⟩

/-- A concrete two-cell rune board used to exercise `Transform` and
`Copy`. -/
def transformExampleBoard : Board Char :=
  ⟨[(⟨0, 0⟩, 'a'), (⟨1, 0⟩, 'b')], some ⟨⟨0, 0⟩, ⟨1, 0⟩⟩, '.',
    some (fun c => c), some (fun a b => decide (a = b))⟩

/-- Embeds `Board.Format` (board.go lines 428-442): `nil` (`none`)
without bounds; otherwise one output row per `y` of the ordered bounds,
reading every cell through `Board.Get` and the supplied symbol function.
`RuneBoard.Format` (board.go lines 534-538) is this with the identity
symbol function. -/
def Board.Format {V : Type} (b : Board V) (f : V → Char) : Option (List (List Char)) :=
  match b.bounds with
  | none => none
  | some r =>
    let r2 := Rect.OrderCoords r
    some ((intRange r2.p1.y r2.p2.y).map fun y =>
      (intRange r2.p1.x r2.p2.x).map fun x => f (b.Get ⟨x, y⟩))

/-! ### Backend-equivalence scaffolding (C4): one op language applied to
both the dense and the sparse backend. -/

inductive Op where
  | setv (p : Pt) (v : Char)
  | delv (p : Pt)
deriving DecidableEq, Repr

/-- The point an operation touches. -/
def Op.pt : Op → Pt
  | .setv p _ => p
  | .delv p => p

/-- One operation on the dense backend (`Set` panics out of range). -/
def applyFB (fb : FlatBoard) : Op → Option FlatBoard
  | .setv p v => fb.Set p v
  | .delv p => fb.Delete p

/-- A whole op sequence on the dense backend. -/
def applyFBs (fb : FlatBoard) (ops : List Op) : Option FlatBoard :=
  ops.foldlM applyFB fb

/-- One operation on the sparse backend. -/
def applyM2 (m : M2 Char) : Op → M2 Char
  | .setv p v => M2.set m p v
  | .delv p => M2.del m p

/-- A whole op sequence on the sparse backend. -/
def applyM2s (m : M2 Char) (ops : List Op) : M2 Char :=
  ops.foldl applyM2 m

/-- The surviving `Set` value of a sequence at a point: `none` when the
point was never set, or its last operation was a delete. -/
def resolve (ops : List Op) (p : Pt) : Option Char :=
  ops.foldl (fun acc op =>
    match op with
    | .setv q v => if q = p then some v else acc
    | .delv q => if q = p then none else acc) none

/-- `resolve` as a transformer on whole abstract states, for the
induction. -/
def resolveF (f : Pt → Option Char) (ops : List Op) : Pt → Option Char :=
  ops.foldl (fun g op =>
    match op with
    | .setv q v => fun p => if q = p then some v else g p
    | .delv q => fun p => if q = p then none else g p) f

/-- Membership in the allocated `w × h` extent. -/
def inRangeN (w h : Int) (p : Pt) : Prop :=
  0 ≤ p.x ∧ p.x < w ∧ 0 ≤ p.y ∧ p.y < h

instance (w h : Int) (p : Pt) : Decidable (inRangeN w h p) :=
  inferInstanceAs (Decidable (0 ≤ p.x ∧ p.x < w ∧ 0 ≤ p.y ∧ p.y < h))

/-- The dense backend refines an abstract partial grid `f`: right empty
value, `h` rows of width `w`, and every in-range cell holds `f p` with
the empty value filling the gaps. -/
def FBRep (w h : Int) (e : Char) (f : Pt → Option Char) (fb : FlatBoard) : Prop :=
  fb.emptyVal = e ∧
  (fb.board.length : Int) = h ∧
  (∀ row ∈ fb.board, (row.length : Int) = w) ∧
  (∀ p : Pt, inRangeN w h p →
    (fb.board.getD p.y.toNat []).getD p.x.toNat e = (f p).getD e)

/-- The BFS iteration budget: five per not-yet-visited universe point
plus one per queued point; it strictly decreases at every `searchAux`
step, so any fuel at least this large behaves like the unbounded Go
loop. -/
def searchMeasure (univ openl visited : List Pt) : Nat :=
  5 * univ.countP (fun p => decide (¬ p ∈ visited)) + openl.length

/-- Reachability through a list-valued neighbor function: the chains of
steps `Search`'s BFS explores. -/
def ReachAdj (adj : Pt → List Pt) : Pt → Pt → Prop :=
  Relation.ReflTransGen (fun a c => c ∈ adj a)

/-- The set of points `FindRegions` is required to partition: the
in-bounds points, restricted (unless `includeEmptyVal`) to those whose
value differs from the board's empty value. -/
def Qualifies {V : Type} [DecidableEq V] (b : Board V) (r : Rect)
    (includeEmptyVal : Bool) (p : Pt) : Prop :=
  p ∈ boundsSeq r ∧ (includeEmptyVal = true ∨ b.Get p ≠ b.emptyVal)

/-- Loop invariant of the `FindRegions` fold: the assigned-point list is
exactly the union of the recorded regions, every recorded region is the
connected component (under equal-valued cardinal adjacency) of some
qualifying seed, and the recorded regions are pairwise disjoint. -/
def regionsInv {V : Type} [DecidableEq V] (b : Board V) (r : Rect)
    (includeEmptyVal : Bool) (acc : List Pt × List (List Pt)) : Prop :=
  (∀ x, x ∈ acc.1 ↔ ∃ reg ∈ acc.2, x ∈ reg) ∧
  (∀ reg ∈ acc.2, ∃ s, Qualifies b r includeEmptyVal s ∧
    ∀ t, (t ∈ reg ↔ ReachAdj (b.regionNeighbors fun a c => decide (a = c)) s t)) ∧
  List.Pairwise (fun r1 r2 => ∀ x, x ∈ r1 → ¬ x ∈ r2) acc.2

/-- The spec's two-region example grid AAB / ABB as a rune board with
bounds `(0,0)-(2,1)`: sparse storage holding the six cells, empty value
`.`, identity decoder, rune equality. -/
def c6Board : Board Char :=
  ⟨[((⟨0, 0⟩ : Pt), 'A'), ((⟨1, 0⟩ : Pt), 'A'), ((⟨2, 0⟩ : Pt), 'B'),
    ((⟨0, 1⟩ : Pt), 'A'), ((⟨1, 1⟩ : Pt), 'B'), ((⟨2, 1⟩ : Pt), 'B')],
   some ⟨⟨0, 0⟩, ⟨2, 1⟩⟩, '.', some (fun c => c), some (fun a b => decide (a = b))⟩

/-- A rune board whose single populated cell `(5,5)` lies outside its
bounds `(0,0)-(0,0)`. -/
def c6OutBoard : Board Char :=
  ⟨[((⟨5, 5⟩ : Pt), 'A')], some ⟨⟨0, 0⟩, ⟨0, 0⟩⟩, '.',
   some (fun c => c), some (fun a b => decide (a = b))⟩

/-- The storage entries one ingested row contributes (specification of
the inner `FromStrings` loop for proofs): left-to-right, one entry per
non-empty decoded symbol. -/
def rowEntries (conv : Char → Char) (cf : Char → Char → Bool) (e : Char) :
    List Char → Int → Int → M2 Char
  | [], _, _ => []
  | c :: cs, x0, y =>
    (if cf (conv c) e then [] else [((⟨x0, y⟩ : Pt), conv c)]) ++
      rowEntries conv cf e cs (x0 + 1) y

/-- The storage entries a whole ingested grid contributes, row-major. -/
def gridEntries (conv : Char → Char) (cf : Char → Char → Bool) (e : Char) :
    List (List Char) → Int → M2 Char
  | [], _ => []
  | r :: rs, y => rowEntries conv cf e r 0 y ++ gridEntries conv cf e rs (y + 1)

/-! ## Theorems -/

namespace M2

variable {V : Type}

theorem get_set (m : M2 V) (p q : Pt) (v : V) :
    get (set m p v) q = if p = q then some v else get m q := by
  induction m with
  | nil => simp only [set, get]
  | cons e m ih =>
    by_cases he : e.1 = p
    · have hs : set (e :: m) p v = (p, v) :: m := by simp [set, he]
      rw [hs]
      by_cases h : p = q
      · subst h; simp [get]
      · have h2 : ¬ e.1 = q := by rw [he]; exact h
        simp [get, h, h2]
    · have hs : set (e :: m) p v = e :: set m p v := by simp [set, he]
      rw [hs]
      by_cases h : e.1 = q
      · have h2 : ¬ p = q := fun hpq => he (h.trans hpq.symm)
        simp [get, h, h2]
      · simp [get, h, ih]

theorem get_del (m : M2 V) (p q : Pt) :
    get (del m p) q = if p = q then none else get m q := by
  induction m with
  | nil => simp [del, get]
  | cons e m ih =>
    by_cases he : e.1 = p
    · have hs : del (e :: m) p = del m p := by simp [del, List.filter_cons, he]
      rw [hs, ih]
      by_cases h : p = q
      · simp [h]
      · have h2 : ¬ e.1 = q := by rw [he]; exact h
        simp [get, h, h2]
    · have hs : del (e :: m) p = e :: del m p := by simp [del, List.filter_cons, he]
      rw [hs]
      by_cases h : e.1 = q
      · have h2 : ¬ p = q := fun hpq => he (h.trans hpq.symm)
        simp [get, h, h2]
      · simp [get, h, ih]

theorem mem_set_key {m : M2 V} {p : Pt} {v : V} {e : Pt × V}
    (h : e ∈ set m p v) : e.1 = p ∨ ∃ c ∈ m, c.1 = e.1 := by
  induction m with
  | nil =>
    simp [set] at h
    exact Or.inl (by rw [h])
  | cons c m ih =>
    by_cases hc : c.1 = p
    · have hs : set (c :: m) p v = (p, v) :: m := by simp [set, hc]
      rw [hs] at h
      rcases List.mem_cons.mp h with h1 | h1
      · exact Or.inl (by rw [h1])
      · exact Or.inr ⟨e, List.mem_cons_of_mem _ h1, rfl⟩
    · have hs : set (c :: m) p v = c :: set m p v := by simp [set, hc]
      rw [hs] at h
      rcases List.mem_cons.mp h with h1 | h1
      · exact Or.inr ⟨c, List.mem_cons_self _ _, by rw [h1]⟩
      · rcases ih h1 with h2 | ⟨d, hd, hd1⟩
        · exact Or.inl h2
        · exact Or.inr ⟨d, List.mem_cons_of_mem _ hd, hd1⟩

theorem Wf.set {m : M2 V} (h : Wf m) (p : Pt) (v : V) : Wf (set m p v) := by
  induction m with
  | nil => simp [M2.set, Wf]
  | cons e m ih =>
    rw [Wf, List.pairwise_cons] at h
    by_cases he : e.1 = p
    · have hs : M2.set (e :: m) p v = (p, v) :: m := by simp [M2.set, he]
      rw [hs, Wf, List.pairwise_cons]
      exact ⟨fun b hb hb2 => h.1 b hb (he.trans hb2), h.2⟩
    · have hs : M2.set (e :: m) p v = e :: M2.set m p v := by simp [M2.set, he]
      rw [hs, Wf, List.pairwise_cons]
      refine ⟨fun b hb => ?_, ih h.2⟩
      rcases mem_set_key hb with h1 | ⟨c, hc, hc1⟩
      · rw [h1]; exact he
      · rw [← hc1]; exact h.1 c hc

theorem Wf.del {m : M2 V} (h : Wf m) (p : Pt) : Wf (del m p) :=
  List.Pairwise.sublist (List.filter_sublist m) h

theorem get_append (a b : M2 V) (p : Pt) :
    get (a ++ b) p = (get a p).or (get b p) := by
  induction a with
  | nil => simp [get]
  | cons e a ih =>
    by_cases h : e.1 = p
    · simp [get, h]
    · simp [get, h, ih]

theorem set_of_get_none {m : M2 V} {p : Pt} (h : get m p = none) (v : V) :
    set m p v = m ++ [(p, v)] := by
  induction m with
  | nil => simp [set]
  | cons e m ih =>
    by_cases he : e.1 = p
    · simp [get, he] at h
    · simp [get, he] at h
      simp [set, he, ih h]

theorem foldl_set_of_disjoint (m : M2 V) (hwf : Wf m) :
    ∀ acc : M2 V, (∀ e ∈ m, get acc e.1 = none) →
      m.foldl (fun a e => set a e.1 e.2) acc = acc ++ m := by
  induction m with
  | nil => intro acc _; simp
  | cons e m ih =>
    intro acc h
    rw [Wf, List.pairwise_cons] at hwf
    rw [List.foldl_cons, set_of_get_none (h e (List.mem_cons_self _ _)) e.2]
    rw [ih hwf.2 (acc ++ [(e.1, e.2)]) ?_]
    · simp
    · intro c hc
      rw [get_append, h c (List.mem_cons_of_mem _ hc)]
      have hne : ¬ e.1 = c.1 := hwf.1 c hc
      simp [get, hne]

theorem copy_eq {m : M2 V} (h : Wf m) : copy m = m := by
  have := foldl_set_of_disjoint m h empty (fun e _ => rfl)
  simpa [copy, empty] using this

end M2

theorem M2.get_mem {V : Type} {m : M2 V} {p : Pt} {v : V}
    (h : M2.get m p = some v) : (p, v) ∈ m := by
  induction m with
  | nil => simp [M2.get] at h
  | cons e m ih =>
    by_cases he : e.1 = p
    · simp [M2.get, he] at h
      have he2 : e = (p, v) := by
        obtain ⟨a, b⟩ := e
        simp only at he h
        rw [he, h]
      rw [he2]
      exact List.mem_cons_self _ _
    · simp [M2.get, he] at h
      exact List.mem_cons_of_mem _ (ih h)

theorem Cow.foldl_iterStep_snd (overlay : M2 Char) (L : List (Pt × Char)) :
    ∀ acc : M2 Char × List (Pt × Char),
      (L.foldl (Cow.iterStep overlay) acc).2 =
        acc.2 ++ L.map (fun e => (e.1, (M2.get overlay e.1).getD e.2)) := by
  induction L with
  | nil => intro acc; simp
  | cons e L ih =>
    intro acc
    rw [List.foldl_cons, ih]
    cases h : M2.get overlay e.1 <;> simp [Cow.iterStep, h]

theorem Cow.foldl_iterStep_fst_mem (overlay : M2 Char) (L : List (Pt × Char)) :
    ∀ acc : M2 Char × List (Pt × Char), ∀ p v, (p, v) ∈ acc.1 →
      (∀ e ∈ L, e.1 ≠ p) → (p, v) ∈ (L.foldl (Cow.iterStep overlay) acc).1 := by
  induction L with
  | nil => intro acc p v h _; exact h
  | cons e L ih =>
    intro acc p v h hL
    rw [List.foldl_cons]
    refine ih _ p v ?_ (fun c hc => hL c (List.mem_cons_of_mem _ hc))
    cases hov : M2.get overlay e.1 with
    | none => simpa [Cow.iterStep, hov] using h
    | some vo =>
      simp only [Cow.iterStep, hov]
      exact List.mem_filter.mpr ⟨h, by
        simp only [decide_eq_true_eq]
        exact fun hc => hL e (List.mem_cons_self _ _) hc.symm⟩

/-- C2: the claim says `Intersection` canonicalizes both operands and in
particular is unchanged when an operand's corners are swapped.  The code's
`OrderCoords` mutates a value-receiver copy and is therefore a no-op at
every call site, so swapping the corners of the first operand changes the
result: with `r = ((2,2),(0,0))` and `v = ((0,0),(1,1))` the code returns
the zero rectangle, while on the canonicalized operands it returns
`((0,0),(1,1))` as the claim (and the code's own doc comment) demand. -/
theorem C2_intersection_no_canonicalization :
    Rect.Intersection ⟨⟨2, 2⟩, ⟨0, 0⟩⟩ ⟨⟨0, 0⟩, ⟨1, 1⟩⟩ = Rect.zero ∧
    Rect.intersectionSpec ⟨⟨2, 2⟩, ⟨0, 0⟩⟩ ⟨⟨0, 0⟩, ⟨1, 1⟩⟩ = ⟨⟨0, 0⟩, ⟨1, 1⟩⟩ ∧
    Rect.Intersection ⟨⟨2, 2⟩, ⟨0, 0⟩⟩ ⟨⟨0, 0⟩, ⟨1, 1⟩⟩ ≠
      Rect.Intersection (Rect.OrderCoords ⟨⟨2, 2⟩, ⟨0, 0⟩⟩) ⟨⟨0, 0⟩, ⟨1, 1⟩⟩ := by
  refine ⟨by decide, by decide, by decide⟩

/-- C1: the claim says `IterateOrdered` visits the merged snapshot with
overlay precedence.  In the code the merge loop iterates
`s.underlying` (not `s`) into the copied underlying, so nothing from the
overlay ever reaches the snapshot: on `cowExample` it visits `(0,0)` with
the stale underlying value `B` even though `Get` yields the overlay value
`A`, and it never visits the populated overlay-only point `(5,7)`, which
the (correct) `Iterate` merge does visit. -/
theorem C1_iterate_ordered_ignores_overlay :
    Cow.IterateOrdered cowExample = some [(⟨0, 0⟩, 'B')] ∧
    Cow.Get cowExample ⟨0, 0⟩ = some 'A' ∧
    Cow.Get cowExample ⟨5, 7⟩ = some 'C' ∧
    Cow.Iterate cowExample = [(⟨0, 0⟩, 'A'), (⟨5, 7⟩, 'C')] := by
  refine ⟨by decide, by decide, by decide, by decide⟩

/-- C7: deleting through the overlay is a tombstone, not erasure: after
`Delete p` the overlay backend's `Iterate` still visits `p`, carrying the
stored empty value, while deleting on a sparse `Map2D` removes the key, so
its iteration never visits `p` and `Get p` reports not-found. -/
theorem C7_overlay_delete_tombstone {V : Type} (s : Cow) (p : Pt)
    (hwf : M2.Wf s.overlay) (m : M2 V) :
    (p, s.emptyVal) ∈ Cow.Iterate (Cow.Delete s p) ∧
    (∀ v, (p, v) ∉ M2.del m p) ∧
    M2.get (M2.del m p) p = none := by
  refine ⟨?_, ?_, ?_⟩
  · have hwf2 : M2.Wf (M2.set s.overlay p s.emptyVal) := M2.Wf.set hwf p s.emptyVal
    have hget : M2.get (M2.set s.overlay p s.emptyVal) p = some s.emptyVal := by
      rw [M2.get_set]; simp
    show (p, s.emptyVal) ∈ Cow.Iterate ⟨s.underlying, M2.set s.overlay p s.emptyVal, s.emptyVal⟩
    by_cases hk : ∃ c ∈ s.underlying.entries, c.1 = p
    · rcases hk with ⟨c, hc, hc1⟩
      apply List.mem_append_left
      rw [Cow.foldl_iterStep_snd]
      apply List.mem_append_right
      apply List.mem_map.mpr
      exact ⟨c, hc, by rw [hc1, hget]; rfl⟩
    · apply List.mem_append_right
      push_neg at hk
      apply Cow.foldl_iterStep_fst_mem
      · rw [M2.copy_eq hwf2]
        exact M2.get_mem hget
      · exact hk
  · intro v hv
    rcases List.mem_filter.mp hv with ⟨_, hd⟩
    simp at hd
  · rw [M2.get_del]; simp

/-- C7 witness: the binder-free parts of the claim at a concrete overlay
(1×1 underlying, empty overlay) and a concrete one-entry sparse map. -/
theorem C7_overlay_delete_tombstone_witness :
    (⟨0, 0⟩, '.') ∈ Cow.Iterate (Cow.Delete ⟨FlatBoard.Allocate 1 1 '.', [], '.'⟩ ⟨0, 0⟩) ∧
    M2.get (M2.del [(⟨0, 0⟩, (3 : Nat))] ⟨0, 0⟩) ⟨0, 0⟩ = none := by
  refine ⟨(C7_overlay_delete_tombstone ⟨FlatBoard.Allocate 1 1 '.', [], '.'⟩ ⟨0, 0⟩
    (by decide) [(⟨0, 0⟩, (3 : Nat))]).1,
    (C7_overlay_delete_tombstone ⟨FlatBoard.Allocate 1 1 '.', [], '.'⟩ ⟨0, 0⟩
    (by decide) [(⟨0, 0⟩, (3 : Nat))]).2.2⟩

theorem M2.get_eq_none_of_forall_ne {V : Type} {m : M2 V} {p : Pt}
    (h : ∀ e ∈ m, e.1 ≠ p) : M2.get m p = none := by
  induction m with
  | nil => rfl
  | cons e m ih =>
    have he : ¬ e.1 = p := h e (List.mem_cons_self _ _)
    simp only [M2.get, he, if_false]
    exact ih fun c hc => h c (List.mem_cons_of_mem _ hc)

theorem M2.Wf_cons_get_none {V : Type} {e : Pt × V} {m : M2 V}
    (h : M2.Wf (e :: m)) : M2.get m e.1 = none := by
  rw [M2.Wf, List.pairwise_cons] at h
  exact M2.get_eq_none_of_forall_ne fun c hc hcp => h.1 c hc hcp.symm

/-- C10: with a conversion function configured, `FromStrings` of the empty
slice reads `s[0]` before anything else and panics with an out-of-range
index; no error value is returned and the board is untouched. -/
theorem C10_fromstrings_empty_panics {V : Type} (b : Board V) (conv : Char → V)
    (h : b.convFunc = some conv) :
    Board.FromStrings b [] = (.panicEmptyInput, b) := by
  simp [Board.FromStrings, h]

/-- C10 witness: a fresh rune board panics on the empty input slice. -/
theorem C10_fromstrings_empty_panics_witness :
    Board.FromStrings runeBoardNew [] = (.panicEmptyInput, runeBoardNew) :=
  C10_fromstrings_empty_panics runeBoardNew (fun c => c) rfl

theorem Board.ingestRow_some {V : Type} (conv : Char → V) (cf : V → V → Bool)
    (ev : V) :
    ∀ (row : List Char) (st : M2 V) (x y : Int),
      ∃ st2, Board.ingestRow conv (some cf) ev st row x y = some st2 := by
  intro row
  induction row with
  | nil => intro st x y; exact ⟨st, rfl⟩
  | cons c cs ih =>
    intro st x y
    rcases ih (if cf (conv c) ev then st else M2.set st ⟨x, y⟩ (conv c)) (x + 1) y with ⟨st2, h2⟩
    exact ⟨st2, h2⟩

theorem Board.ingestRows_out {V : Type} (conv : Char → V) (cf : V → V → Bool)
    (ev : V) (w : Nat) :
    ∀ (rs : List (List Char)) (st : M2 V) (y : Int),
      ((Board.ingestRows conv (some cf) ev w st rs y).1 = .ok ∨
        (Board.ingestRows conv (some cf) ev w st rs y).1 = .errNonUniform) ∧
      ((Board.ingestRows conv (some cf) ev w st rs y).1 = .errNonUniform ↔
        ∃ r ∈ rs, r.length ≠ w) := by
  intro rs
  induction rs with
  | nil =>
    intro st y
    constructor
    · exact Or.inl rfl
    · simp [Board.ingestRows]
  | cons r rs ih =>
    intro st y
    by_cases hlen : r.length ≠ w
    · constructor
      · right
        simp [Board.ingestRows, hlen]
      · constructor
        · intro _
          exact ⟨r, List.mem_cons_self _ _, hlen⟩
        · intro _
          simp [Board.ingestRows, hlen]
    · rcases Board.ingestRow_some conv cf ev r st 0 y with ⟨st2, hrow⟩
      have hstep : Board.ingestRows conv (some cf) ev w st (r :: rs) y =
          Board.ingestRows conv (some cf) ev w st2 rs (y + 1) := by
        simp [Board.ingestRows, hlen, hrow]
      rw [hstep]
      rcases ih st2 (y + 1) with ⟨h1, h2⟩
      refine ⟨h1, h2.trans ?_⟩
      constructor
      · intro ⟨c, hc, hcw⟩
        exact ⟨c, List.mem_cons_of_mem _ hc, hcw⟩
      · intro ⟨c, hc, hcw⟩
        rcases List.mem_cons.mp hc with h3 | h3
        · exact absurd (h3 ▸ hcw) hlen
        · exact ⟨c, h3, hcw⟩

/-- C3 (amended): with conversion and comparison functions set and a
non-empty input, `FromStrings` errs exactly when some row's length differs
from the first row's, and on that error the bounds are left unchanged.
(The backend, however, has already been re-allocated and the rows before
the offending one ingested — see the counterexample.) -/
theorem C3_fromstrings_row_check {V : Type} (b : Board V) (conv : Char → V)
    (comp : V → V → Bool) (r0 : List Char) (rs : List (List Char))
    (hc : b.convFunc = some conv) (hcm : b.compFunc = some comp) :
    ((Board.FromStrings b (r0 :: rs)).1 = .errNonUniform ∨
      (Board.FromStrings b (r0 :: rs)).1 = .ok) ∧
    ((Board.FromStrings b (r0 :: rs)).1 = .errNonUniform ↔
      ∃ r ∈ r0 :: rs, r.length ≠ r0.length) ∧
    ((Board.FromStrings b (r0 :: rs)).1 = .errNonUniform →
      (Board.FromStrings b (r0 :: rs)).2.bounds = b.bounds) := by
  have hout := Board.ingestRows_out conv comp b.emptyVal r0.length (r0 :: rs)
    (M2.allocate (r0.length : Int) ((r0 :: rs).length : Int) b.emptyVal) 0
  set res := Board.ingestRows conv (some comp) b.emptyVal r0.length
    (M2.allocate (r0.length : Int) ((r0 :: rs).length : Int) b.emptyVal) (r0 :: rs) 0 with hres
  have hunfold : Board.FromStrings b (r0 :: rs) =
      if res.1 = .ok then
        (.ok, { b with
                  storage := res.2
                  bounds := some ⟨⟨0, 0⟩,
                    ⟨(r0.length : Int) - 1, ((r0 :: rs).length : Int) - 1⟩⟩ })
      else (res.1, { b with storage := res.2 }) := by
    rw [Board.FromStrings, hc, hcm]
  by_cases hok : res.1 = .ok
  · rw [hunfold, if_pos hok]
    have hne : ¬ ∃ r ∈ r0 :: rs, r.length ≠ r0.length := by
      rw [← hout.2, hok]
      decide
    refine ⟨Or.inr rfl, ?_, ?_⟩
    · constructor
      · intro h
        exact FSOut.noConfusion h
      · intro h
        exact absurd h hne
    · intro h
      exact FSOut.noConfusion h
  · have herr : res.1 = .errNonUniform := hout.1.resolve_left hok
    have hex : ∃ r ∈ r0 :: rs, r.length ≠ r0.length := hout.2.mp herr
    rw [hunfold, if_neg hok, herr]
    refine ⟨Or.inl rfl, ?_, fun _ => rfl⟩
    constructor
    · intro _
      exact hex
    · intro _
      rfl

/-- C3 witness: on the uniform two-row input `ab`,`cd` the fresh rune
board ingests successfully, and the amended equivalence holds there. -/
theorem C3_fromstrings_row_check_witness :
    ((Board.FromStrings runeBoardNew [['a', 'b'], ['c', 'd']]).1 = .errNonUniform ∨
      (Board.FromStrings runeBoardNew [['a', 'b'], ['c', 'd']]).1 = .ok) ∧
    ((Board.FromStrings runeBoardNew [['a', 'b'], ['c', 'd']]).1 = .errNonUniform ↔
      ∃ r ∈ [['a', 'b'], ['c', 'd']], r.length ≠ 2) ∧
    ((Board.FromStrings runeBoardNew [['a', 'b'], ['c', 'd']]).1 = .errNonUniform →
      (Board.FromStrings runeBoardNew [['a', 'b'], ['c', 'd']]).2.bounds =
        runeBoardNew.bounds) :=
  C3_fromstrings_row_check runeBoardNew (fun c => c) (fun a b => decide (a = b))
    ['a', 'b'] [['c', 'd']] rfl rfl

/-- C3 counterexample: the claim "whenever it returns that error ... no
cell has been written to the backend" fails: on `["ab","c"]` the fresh
rune board returns the non-uniform error, yet row 0 was already ingested
(`(0,0) ↦ a`). -/
theorem C3_partial_ingestion_counterexample :
    (Board.FromStrings runeBoardNew [['a', 'b'], ['c']]).1 = .errNonUniform ∧
    M2.get (Board.FromStrings runeBoardNew [['a', 'b'], ['c']]).2.storage ⟨0, 0⟩ =
      some 'a' ∧
    (Board.FromStrings runeBoardNew [['a', 'b'], ['c']]).2.storage ≠ [] := by
  refine ⟨rfl, rfl, by decide⟩

theorem M2.get_foldl_set {V : Type} (chs : M2 V) (hwf : M2.Wf chs) :
    ∀ (st : M2 V) (p : Pt),
      M2.get (chs.foldl (fun s c => M2.set s c.1 c.2) st) p =
        (M2.get chs p).or (M2.get st p) := by
  induction chs with
  | nil => intro st p; simp [M2.get]
  | cons c chs ih =>
    intro st p
    have htail : M2.Wf chs := (List.pairwise_cons.mp hwf).2
    rw [List.foldl_cons, ih htail]
    by_cases h : c.1 = p
    · have hnone : M2.get chs p = none := h ▸ M2.Wf_cons_get_none hwf
      rw [hnone, M2.get_set]
      simp [M2.get, h]
    · rw [M2.get_set]
      simp [M2.get, h]

theorem Board.collectChanges_some {V : Type} (cf : V → V → Bool) (t : Pt → V → V) :
    ∀ m : List (Pt × V),
      Board.collectChanges (some cf) t m =
        some (m.filterMap fun e =>
          if cf (t e.1 e.2) e.2 then none else some (e.1, t e.1 e.2)) := by
  intro m
  induction m with
  | nil => rfl
  | cons e m ih =>
    rw [Board.collectChanges, ih]
    by_cases h : cf (t e.1 e.2) e.2 <;> simp [List.filterMap_cons, h]

theorem Board.changes_wf {V : Type} (cf : V → V → Bool) (t : Pt → V → V)
    {m : M2 V} (hwf : M2.Wf m) :
    M2.Wf (m.filterMap fun e =>
      if cf (t e.1 e.2) e.2 then none else some (e.1, t e.1 e.2)) := by
  induction m with
  | nil => exact List.Pairwise.nil
  | cons e m ih =>
    rw [M2.Wf, List.pairwise_cons] at hwf
    by_cases h : cf (t e.1 e.2) e.2
    · have hf : (if cf (t e.1 e.2) e.2 then none
          else some (e.1, t e.1 e.2) : Option (Pt × V)) = none := by simp [h]
      simp only [List.filterMap_cons, hf]
      exact ih hwf.2
    · have hf : (if cf (t e.1 e.2) e.2 then none
          else some (e.1, t e.1 e.2) : Option (Pt × V)) = some (e.1, t e.1 e.2) := by
        simp [h]
      simp only [List.filterMap_cons, hf]
      rw [M2.Wf, List.pairwise_cons]
      refine ⟨fun b hb => ?_, ih hwf.2⟩
      rcases List.mem_filterMap.mp hb with ⟨c, hc, hcb⟩
      by_cases h2 : cf (t c.1 c.2) c.2
      · rw [if_pos h2] at hcb
        exact Option.noConfusion hcb
      · rw [if_neg h2] at hcb
        have h3 : (c.1, t c.1 c.2) = b := by injection hcb
        have hb1 : c.1 = b.1 := by rw [← h3]
        exact hb1 ▸ hwf.1 c hc


theorem M2.get_ne_none_of_mem {V : Type} {m : M2 V} {c : Pt × V}
    (hc : c ∈ m) : M2.get m c.1 ≠ none := by
  induction m with
  | nil => exact absurd hc (List.not_mem_nil c)
  | cons e m ih =>
    by_cases he : e.1 = c.1
    · simp [M2.get, he]
    · rcases List.mem_cons.mp hc with h1 | h1
      · exact absurd (congrArg Prod.fst h1.symm) he
      · simp only [M2.get, he, if_false]
        exact ih h1

theorem Board.get_changes_none {V : Type} (cf : V → V → Bool) (t : Pt → V → V)
    {m : M2 V} {p : Pt} (hp : M2.get m p = none) :
    M2.get (m.filterMap fun e =>
      if cf (t e.1 e.2) e.2 then none else some (e.1, t e.1 e.2)) p = none := by
  apply M2.get_eq_none_of_forall_ne
  intro b hb hbp
  rcases List.mem_filterMap.mp hb with ⟨c, hc, hcb⟩
  by_cases h2 : cf (t c.1 c.2) c.2
  · rw [if_pos h2] at hcb
    exact Option.noConfusion hcb
  · rw [if_neg h2] at hcb
    have h3 : (c.1, t c.1 c.2) = b := by injection hcb
    have hb1 : c.1 = b.1 := by rw [← h3]
    exact M2.get_ne_none_of_mem hc (by rw [hb1, hbp]; exact hp)

theorem Board.get_changes_some {V : Type} (cf : V → V → Bool) (t : Pt → V → V) :
    ∀ {m : M2 V}, M2.Wf m → ∀ {p : Pt} {v : V}, M2.get m p = some v →
      M2.get (m.filterMap fun e =>
        if cf (t e.1 e.2) e.2 then none else some (e.1, t e.1 e.2)) p =
      if cf (t p v) v then none else some (t p v) := by
  intro m
  induction m with
  | nil =>
    intro _ p v hp
    exact absurd hp (by simp [M2.get])
  | cons e m ih =>
    intro hwf p v hp
    by_cases he : e.1 = p
    · have hv : e.2 = v := by
        simp [M2.get, he] at hp
        exact hp
      have htail : M2.get m p = none := he ▸ M2.Wf_cons_get_none hwf
      by_cases hcf : cf (t e.1 e.2) e.2
      · have hf : (if cf (t e.1 e.2) e.2 then none
            else some (e.1, t e.1 e.2) : Option (Pt × V)) = none := by simp [hcf]
        simp only [List.filterMap_cons, hf]
        rw [Board.get_changes_none cf t htail]
        rw [he, hv] at hcf
        simp [hcf]
      · have hf : (if cf (t e.1 e.2) e.2 then none
            else some (e.1, t e.1 e.2) : Option (Pt × V)) = some (e.1, t e.1 e.2) := by
          simp [hcf]
        simp only [List.filterMap_cons, hf]
        rw [he, hv] at hcf ⊢
        simp [M2.get, hcf]
    · have hp2 : M2.get m p = some v := by
        simp only [M2.get, he, if_false] at hp
        exact hp
      have htail : M2.Wf m := (List.pairwise_cons.mp hwf).2
      by_cases hcf : cf (t e.1 e.2) e.2
      · have hf : (if cf (t e.1 e.2) e.2 then none
            else some (e.1, t e.1 e.2) : Option (Pt × V)) = none := by simp [hcf]
        simp only [List.filterMap_cons, hf]
        exact ih htail hp2
      · have hf : (if cf (t e.1 e.2) e.2 then none
            else some (e.1, t e.1 e.2) : Option (Pt × V)) = some (e.1, t e.1 e.2) := by
          simp [hcf]
        simp only [List.filterMap_cons, hf]
        simp only [M2.get, he, if_false]
        exact ih htail hp2

/-- C5: with a comparison function set, `Transform` batches its writes:
every populated point ends up holding the transform of its pre-call value
(the old value when the comparison says the transform did not change it),
unpopulated points stay unpopulated, and the bounds and empty value are
untouched.  The collect-then-apply shape of the embedded definition
mirrors the source: `tFunc` is applied exactly once per populated entry,
always to the value read before any write happens. -/
theorem C5_transform_batched {V : Type} (b : Board V) (comp : V → V → Bool)
    (t : Pt → V → V) (hcomp : b.compFunc = some comp) (hwf : M2.Wf b.storage) :
    ∃ b2, Board.Transform b t = some b2 ∧
      (∀ p v, M2.get b.storage p = some v →
          M2.get b2.storage p = some (if comp (t p v) v then v else t p v)) ∧
      (∀ p, M2.get b.storage p = none → M2.get b2.storage p = none) ∧
      b2.bounds = b.bounds ∧ b2.emptyVal = b.emptyVal := by
  rw [Board.Transform, hcomp, Board.collectChanges_some]
  refine ⟨_, rfl, ?_, ?_, rfl, rfl⟩
  · intro p v hp
    show M2.get (List.foldl _ b.storage _) p = _
    rw [M2.get_foldl_set _ (Board.changes_wf comp t hwf)]
    rw [Board.get_changes_some comp t hwf hp]
    by_cases hcf : comp (t p v) v
    · simp [hcf, hp]
    · simp [hcf]
  · intro p hp
    show M2.get (List.foldl _ b.storage _) p = _
    rw [M2.get_foldl_set _ (Board.changes_wf comp t hwf)]
    rw [Board.get_changes_none comp t hp]
    simp [hp]

/-- C5 witness: the batched-transform characterization at a concrete
two-cell board and the constant transform to `z`. -/
theorem C5_transform_batched_witness :
    ∃ b2, Board.Transform transformExampleBoard (fun _ _ => 'z') = some b2 ∧
      (∀ p v, M2.get transformExampleBoard.storage p = some v →
          M2.get b2.storage p =
            some (if decide ((fun _ _ => 'z') p v = v) then v else 'z')) ∧
      (∀ p, M2.get transformExampleBoard.storage p = none →
          M2.get b2.storage p = none) ∧
      b2.bounds = transformExampleBoard.bounds ∧
      b2.emptyVal = transformExampleBoard.emptyVal :=
  C5_transform_batched transformExampleBoard (fun a b => decide (a = b))
    (fun _ _ => 'z') rfl (by decide)

/-- C9 (amended): `Copy` duplicates the storage contents, bounds and
empty value, but leaves `convFunc` and `compFunc` nil, so on the copy
ingestion always fails with the missing-conversion error, `FindRegions`
always panics, and `Transform` panics whenever the board has at least one
populated cell (on an empty backend `Transform` happens to be a no-op and
does not fail). -/
theorem C9_copy_resets_funcs {V : Type} (b : Board V) (hwf : M2.Wf b.storage)
    (t : Pt → V → V) (rows : List (List Char)) (incl : Bool) :
    (Board.Copy b).storage = b.storage ∧
    (Board.Copy b).bounds = b.bounds ∧
    (Board.Copy b).emptyVal = b.emptyVal ∧
    (Board.Copy b).convFunc = none ∧
    (Board.Copy b).compFunc = none ∧
    (Board.FromStrings (Board.Copy b) rows).1 = .errConvMissing ∧
    Board.FindRegions (Board.Copy b) incl = none ∧
    (b.storage ≠ [] → Board.Transform (Board.Copy b) t = none) ∧
    (b.storage = [] → Board.Transform (Board.Copy b) t = some (Board.Copy b)) := by
  refine ⟨M2.copy_eq hwf, rfl, rfl, rfl, rfl, rfl, rfl, ?_, ?_⟩
  · intro hne
    cases hst : b.storage with
    | nil => exact absurd hst hne
    | cons e m =>
      have hcopy : M2.copy b.storage = e :: m := by rw [M2.copy_eq hwf, hst]
      simp [Board.Transform, Board.Copy, hcopy, Board.collectChanges]
  · intro hempty
    simp [Board.Transform, Board.Copy, M2.copy_eq hwf, hempty, Board.collectChanges]

/-- C9 witness: the copy characterization at a concrete two-cell board,
a transform, a row list and both region flags. -/
theorem C9_copy_resets_funcs_witness :
    (Board.Copy transformExampleBoard).storage = transformExampleBoard.storage ∧
    (Board.Copy transformExampleBoard).bounds = transformExampleBoard.bounds ∧
    (Board.Copy transformExampleBoard).emptyVal = transformExampleBoard.emptyVal ∧
    (Board.Copy transformExampleBoard).convFunc = none ∧
    (Board.Copy transformExampleBoard).compFunc = none ∧
    (Board.FromStrings (Board.Copy transformExampleBoard) [['a']]).1 =
      .errConvMissing ∧
    Board.FindRegions (Board.Copy transformExampleBoard) false = none ∧
    (transformExampleBoard.storage ≠ [] →
      Board.Transform (Board.Copy transformExampleBoard) (fun _ v => v) = none) ∧
    (transformExampleBoard.storage = [] →
      Board.Transform (Board.Copy transformExampleBoard) (fun _ v => v) =
        some (Board.Copy transformExampleBoard)) :=
  C9_copy_resets_funcs transformExampleBoard (by decide) (fun _ v => v) [['a']] false

/-- C9 counterexample: the claim's consequence "Transform ... on the copy
fails or panics even when it worked on the original" does not hold
universally: on the fresh (empty-storage) rune board, `Transform`
succeeds on the original and succeeds on the copy as well. -/
theorem C9_transform_on_copy_counterexample :
    Board.Transform runeBoardNew (fun _ v => v) = some runeBoardNew ∧
    Board.Transform (Board.Copy runeBoardNew) (fun _ v => v) =
      some (Board.Copy runeBoardNew) := by
  constructor
  · rfl
  · rfl

theorem getD_set_self {α : Type} (l : List α) (i : Nat) (a d : α) (h : i < l.length) :
    (l.set i a).getD i d = a := by
  rw [List.getD_eq_getElem?_getD, List.getElem?_set_self (by simpa using h)]
  rfl

theorem getD_set_ne {α : Type} (l : List α) (i j : Nat) (a d : α) (h : i ≠ j) :
    (l.set i a).getD j d = l.getD j d := by
  rw [List.getD_eq_getElem?_getD, List.getElem?_set_ne h, ← List.getD_eq_getElem?_getD]

theorem getD_mem {α : Type} (l : List α) (i : Nat) (h : i < l.length) (d : α) :
    l.getD i d ∈ l := by
  rw [List.getD_eq_getElem?_getD, List.getElem?_eq_getElem h]
  exact List.getElem_mem h

theorem FBRep_congr {w h : Int} {e : Char} {f g : Pt → Option Char} {fb : FlatBoard}
    (hfg : ∀ q, (f q).getD e = (g q).getD e) (hrep : FBRep w h e f fb) :
    FBRep w h e g fb :=
  ⟨hrep.1, hrep.2.1, hrep.2.2.1, fun p hp => (hrep.2.2.2 p hp).trans (hfg p)⟩

theorem FBRep_allocate (w h : Int) (e : Char) (hw : 0 ≤ w) (hh : 0 ≤ h) :
    FBRep w h e (fun _ => none) (FlatBoard.Allocate w h e) := by
  refine ⟨rfl, ?_, ?_, ?_⟩
  · simp [FlatBoard.Allocate]
    omega
  · intro row hrow
    rw [List.eq_of_mem_replicate hrow]
    simp
    omega
  · intro p hp
    obtain ⟨hx0, hxw, hy0, hyh⟩ := hp
    have hyy : p.y.toNat < h.toNat := by omega
    have hxx : p.x.toNat < w.toNat := by omega
    show ((List.replicate h.toNat (List.replicate w.toNat e)).getD p.y.toNat []).getD
        p.x.toNat e = e
    have hrow : (List.replicate h.toNat (List.replicate w.toNat e)).getD p.y.toNat [] =
        List.replicate w.toNat e := by
      rw [List.getD_eq_getElem?_getD, List.getElem?_replicate]
      simp [hyy]
    rw [hrow, List.getD_eq_getElem?_getD, List.getElem?_replicate]
    simp [hxx]

theorem resolveF_point (ops : List Op) :
    ∀ (f : Pt → Option Char) (p : Pt),
      resolveF f ops p = ops.foldl (fun acc op =>
        match op with
        | .setv q v => if q = p then some v else acc
        | .delv q => if q = p then none else acc) (f p) := by
  induction ops with
  | nil => intro f p; rfl
  | cons op ops ih =>
    intro f p
    cases op with
    | setv q v => exact ih _ p
    | delv q => exact ih _ p

theorem resolve_eq (ops : List Op) (p : Pt) :
    resolve ops p = resolveF (fun _ => none) ops p :=
  (resolveF_point ops (fun _ => none) p).symm

theorem fbSet_step {w h : Int} {e : Char} {f : Pt → Option Char} {fb : FlatBoard}
    (hrep : FBRep w h e f fb) {p : Pt} (hp : inRangeN w h p) (v : Char) :
    ∃ fb2, FlatBoard.Set fb p v = some fb2 ∧
      FBRep w h e (fun q => if p = q then some v else f q) fb2 := by
  obtain ⟨hev, hlen, hrows, hcells⟩ := hrep
  obtain ⟨hx0, hxw, hy0, hyh⟩ := hp
  have hylt : p.y.toNat < fb.board.length := by omega
  have hrowmem : (fb.board.getD p.y.toNat []) ∈ fb.board := getD_mem _ _ hylt []
  have hrwl : ((fb.board.getD p.y.toNat []).length : Int) = w := hrows _ hrowmem
  have hxlt : p.x.toNat < (fb.board.getD p.y.toNat []).length := by omega
  rw [FlatBoard.Set, if_pos ⟨hy0, hylt, hx0, hxlt⟩]
  refine ⟨_, rfl, hev, ?_, ?_, ?_⟩
  · simpa using hlen
  · intro row hrm
    rcases List.mem_or_eq_of_mem_set hrm with h1 | h1
    · exact hrows row h1
    · rw [h1]
      simpa using hrwl
  · intro q hq
    obtain ⟨hqx0, hqxw, hqy0, hqyh⟩ := hq
    show ((fb.board.set p.y.toNat _).getD q.y.toNat []).getD q.x.toNat e = _
    by_cases hyq : q.y.toNat = p.y.toNat
    · rw [hyq, getD_set_self _ _ _ _ hylt]
      by_cases hxq : q.x.toNat = p.x.toNat
      · have hx2 : p.x = q.x := by omega
        have hy2 : p.y = q.y := by omega
        have hqp : p = q := Pt.ext hx2 hy2
        rw [hxq, getD_set_self _ _ _ _ hxlt]
        simp [hqp]
      · have hqp : ¬ p = q := by
          intro hcontra
          rw [hcontra] at hxq
          exact hxq rfl
        rw [getD_set_ne _ _ _ _ _ (fun hcc => hxq hcc.symm)]
        have hc := hcells q ⟨hqx0, hqxw, hqy0, hqyh⟩
        rw [hyq] at hc
        rw [hc]
        simp [hqp]
    · rw [getD_set_ne _ _ _ _ _ (fun hcc => hyq hcc.symm)]
      have hqp : ¬ p = q := fun hcontra => hyq (by rw [hcontra])
      rw [hcells q ⟨hqx0, hqxw, hqy0, hqyh⟩]
      simp [hqp]

theorem fbDelete_step {w h : Int} {e : Char} {f : Pt → Option Char} {fb : FlatBoard}
    (hrep : FBRep w h e f fb) {p : Pt} (hp : inRangeN w h p) :
    ∃ fb2, FlatBoard.Delete fb p = some fb2 ∧
      FBRep w h e (fun q => if p = q then none else f q) fb2 := by
  rcases fbSet_step hrep hp fb.emptyVal with ⟨fb2, hset, hrep2⟩
  refine ⟨fb2, hset, FBRep_congr ?_ hrep2⟩
  intro q
  by_cases hq : p = q <;> simp [hq, hrep.1]

theorem applyOps_rep (w h : Int) (e : Char) :
    ∀ (ops : List Op) (fb : FlatBoard) (m : M2 Char) (f : Pt → Option Char),
      FBRep w h e f fb → (∀ p, M2.get m p = f p) →
      (∀ op ∈ ops, inRangeN w h op.pt) →
      ∃ fb2, applyFBs fb ops = some fb2 ∧ FBRep w h e (resolveF f ops) fb2 ∧
        (∀ p, M2.get (applyM2s m ops) p = resolveF f ops p) := by
  intro ops
  induction ops with
  | nil =>
    intro fb m f hrep hm _
    exact ⟨fb, rfl, hrep, hm⟩
  | cons op ops ih =>
    intro fb m f hrep hm hops
    have hops2 : ∀ c ∈ ops, inRangeN w h c.pt :=
      fun c hc => hops c (List.mem_cons_of_mem _ hc)
    cases op with
    | setv p v =>
      have hop : inRangeN w h p := hops (Op.setv p v) (List.mem_cons_self _ _)
      rcases fbSet_step hrep hop v with ⟨fb1, hset, hrep1⟩
      have hm1 : ∀ q, M2.get (M2.set m p v) q =
          (fun q => if p = q then some v else f q) q := by
        intro q
        rw [M2.get_set]
        by_cases hq : p = q <;> simp [hq, hm]
      rcases ih fb1 (M2.set m p v) _ hrep1 hm1 hops2 with ⟨fb2, h1, h2, h3⟩
      refine ⟨fb2, ?_, h2, h3⟩
      rw [applyFBs, List.foldlM_cons]
      show (FlatBoard.Set fb p v).bind _ = _
      rw [hset]
      exact h1
    | delv p =>
      have hop : inRangeN w h p := hops (Op.delv p) (List.mem_cons_self _ _)
      rcases fbDelete_step hrep hop with ⟨fb1, hdel, hrep1⟩
      have hm1 : ∀ q, M2.get (M2.del m p) q =
          (fun q => if p = q then none else f q) q := by
        intro q
        rw [M2.get_del]
        by_cases hq : p = q <;> simp [hq, hm]
      rcases ih fb1 (M2.del m p) _ hrep1 hm1 hops2 with ⟨fb2, h1, h2, h3⟩
      refine ⟨fb2, ?_, h2, h3⟩
      rw [applyFBs, List.foldlM_cons]
      show (FlatBoard.Delete fb p).bind _ = _
      rw [hdel]
      exact h1

theorem resolve_some_in_range {w h : Int} {ops : List Op}
    (hops : ∀ op ∈ ops, inRangeN w h op.pt) {p : Pt}
    (hres : resolve ops p ≠ none) : inRangeN w h p := by
  rw [resolve] at hres
  revert hres
  have haux : ∀ (l : List Op), (∀ op ∈ l, inRangeN w h op.pt) →
      ∀ acc : Option Char, (acc ≠ none → inRangeN w h p) →
      (l.foldl (fun acc op =>
        match op with
        | .setv q v => if q = p then some v else acc
        | .delv q => if q = p then none else acc) acc ≠ none → inRangeN w h p) := by
    intro l
    induction l with
    | nil => intro _ acc hacc hne; exact hacc hne
    | cons op l ihl =>
      intro hl acc hacc
      rw [List.foldl_cons]
      apply ihl (fun c hc => hl c (List.mem_cons_of_mem _ hc))
      cases op with
      | setv q v =>
        by_cases hq : q = p
        · intro _
          exact hq ▸ hl (Op.setv q v) (List.mem_cons_self _ _)
        · simp only [hq, if_false]
          exact hacc
      | delv q =>
        by_cases hq : q = p
        · simp [hq]
        · simp only [hq, if_false]
          exact hacc
  exact haux ops hops none (fun hc => absurd rfl hc)

theorem FBRep_width {w h : Int} {e : Char} {f : Pt → Option Char} {fb : FlatBoard}
    (hrep : FBRep w h e f fb) (hh : 1 ≤ h) : (fb.width : Int) = w := by
  obtain ⟨_, hlen, hrows, _⟩ := hrep
  have hlen1 : 1 ≤ fb.board.length := by omega
  have hmem : fb.board.headD [] ∈ fb.board := by
    cases hb : fb.board with
    | nil => rw [hb] at hlen1; exact absurd hlen1 (by simp)
    | cons r rest => simp [List.headD]
  exact hrows _ hmem

/-- C4 (amended): over any op sequence whose points are in the allocated
`w × h` range (`w, h ≥ 1`), the dense and sparse backends agree on `Get`
and `GetOrDefault` at every point whose last operation was a `Set`; at
in-range points never set (or last deleted) the dense backend reports the
empty value as found while the sparse one reports not-found (so
`GetOrDefault` agrees there exactly when the default is the empty value);
and both report not-found out of range. -/
theorem C4_backend_agreement (w h : Int) (e : Char) (ops : List Op)
    (hw : 1 ≤ w) (hh : 1 ≤ h)
    (hops : ∀ op ∈ ops, inRangeN w h op.pt) :
    ∃ fb2, applyFBs (FlatBoard.Allocate w h e) ops = some fb2 ∧
      (∀ p v, resolve ops p = some v →
        fb2.Get p = some v ∧ M2.get (applyM2s M2.empty ops) p = some v ∧
        (∀ d, fb2.GetOrDefault p d = v ∧ M2.getD (applyM2s M2.empty ops) p d = v)) ∧
      (∀ p, inRangeN w h p → resolve ops p = none →
        fb2.Get p = some e ∧ M2.get (applyM2s M2.empty ops) p = none ∧
        (∀ d, fb2.GetOrDefault p d = e ∧ M2.getD (applyM2s M2.empty ops) p d = d)) ∧
      (∀ p, ¬ inRangeN w h p →
        fb2.Get p = none ∧ M2.get (applyM2s M2.empty ops) p = none) := by
  rcases applyOps_rep w h e ops (FlatBoard.Allocate w h e) M2.empty (fun _ => none)
    (FBRep_allocate w h e (by omega) (by omega)) (fun _ => rfl) hops with
    ⟨fb2, happ, hrep, hm⟩
  have hwidth : (fb2.width : Int) = w := FBRep_width hrep hh
  have hheight : (fb2.height : Int) = h := hrep.2.1
  have hget : ∀ p : Pt, inRangeN w h p →
      fb2.Get p = some ((resolve ops p).getD e) ∧
      ∀ d, fb2.GetOrDefault p d = (resolve ops p).getD e := by
    intro p hp
    obtain ⟨hx0, hxw, hy0, hyh⟩ := hp
    have hcond : 0 ≤ p.x ∧ p.x < (fb2.width : Int) ∧ 0 ≤ p.y ∧ p.y < (fb2.height : Int) := by
      rw [hwidth, hheight]
      exact ⟨hx0, hxw, hy0, hyh⟩
    have hcell := hrep.2.2.2 p ⟨hx0, hxw, hy0, hyh⟩
    rw [← resolve_eq] at hcell
    constructor
    · rw [FlatBoard.Get, if_pos hcond, hrep.1, hcell]
    · intro d
      rw [FlatBoard.GetOrDefault, if_pos hcond, hrep.1, hcell]
  have hgetout : ∀ p : Pt, ¬ inRangeN w h p → fb2.Get p = none := by
    intro p hp
    rw [FlatBoard.Get, if_neg ?_]
    rw [hwidth, hheight]
    exact hp
  have hmres : ∀ p, M2.get (applyM2s M2.empty ops) p = resolve ops p := by
    intro p
    rw [hm p, ← resolve_eq]
  refine ⟨fb2, happ, ?_, ?_, ?_⟩
  · intro p v hv
    have hp : inRangeN w h p := resolve_some_in_range hops (by rw [hv]; simp)
    rcases hget p hp with ⟨h1, h2⟩
    rw [hv] at h1 h2
    refine ⟨h1, by rw [hmres, hv], fun d => ⟨h2 d, ?_⟩⟩
    rw [M2.getD, hmres, hv]
    rfl
  · intro p hp hres
    rcases hget p hp with ⟨h1, h2⟩
    rw [hres] at h1 h2
    refine ⟨h1, by rw [hmres, hres], fun d => ⟨h2 d, ?_⟩⟩
    rw [M2.getD, hmres, hres]
    rfl
  · intro p hp
    refine ⟨hgetout p hp, ?_⟩
    rw [hmres]
    cases hres : resolve ops p with
    | none => rfl
    | some v =>
      exact absurd (resolve_some_in_range hops (by rw [hres]; simp)) hp

/-- C4 witness: the amended agreement at `w = 2, h = 1`, empty `.`, and
the sequence `Set (0,0) a; Delete (0,0); Set (1,0) b`. -/
theorem C4_backend_agreement_witness :
    ∃ fb2, applyFBs (FlatBoard.Allocate 2 1 '.')
        [.setv ⟨0, 0⟩ 'a', .delv ⟨0, 0⟩, .setv ⟨1, 0⟩ 'b'] = some fb2 ∧
      (∀ p v, resolve [.setv ⟨0, 0⟩ 'a', .delv ⟨0, 0⟩, .setv ⟨1, 0⟩ 'b'] p = some v →
        fb2.Get p = some v ∧
        M2.get (applyM2s M2.empty [.setv ⟨0, 0⟩ 'a', .delv ⟨0, 0⟩, .setv ⟨1, 0⟩ 'b']) p =
          some v ∧
        (∀ d, fb2.GetOrDefault p d = v ∧
          M2.getD (applyM2s M2.empty
            [.setv ⟨0, 0⟩ 'a', .delv ⟨0, 0⟩, .setv ⟨1, 0⟩ 'b']) p d = v)) ∧
      (∀ p, inRangeN 2 1 p →
        resolve [.setv ⟨0, 0⟩ 'a', .delv ⟨0, 0⟩, .setv ⟨1, 0⟩ 'b'] p = none →
        fb2.Get p = some '.' ∧
        M2.get (applyM2s M2.empty [.setv ⟨0, 0⟩ 'a', .delv ⟨0, 0⟩, .setv ⟨1, 0⟩ 'b']) p =
          none ∧
        (∀ d, fb2.GetOrDefault p d = '.' ∧
          M2.getD (applyM2s M2.empty
            [.setv ⟨0, 0⟩ 'a', .delv ⟨0, 0⟩, .setv ⟨1, 0⟩ 'b']) p d = d)) ∧
      (∀ p, ¬ inRangeN 2 1 p →
        fb2.Get p = none ∧
        M2.get (applyM2s M2.empty [.setv ⟨0, 0⟩ 'a', .delv ⟨0, 0⟩, .setv ⟨1, 0⟩ 'b']) p =
          none) :=
  C4_backend_agreement 2 1 '.' [.setv ⟨0, 0⟩ 'a', .delv ⟨0, 0⟩, .setv ⟨1, 0⟩ 'b']
    (by decide) (by decide) (by decide)

/-- C4 counterexample: the claim as stated demands agreement on the `Get`
found-flag and value at every in-range coordinate; already after
`Allocate(1,1,'.')` with no operations at all, the dense backend reports
`(., found)` at `(0,0)` while the sparse one reports not-found, and their
`GetOrDefault` results differ for a default other than the empty value. -/
theorem C4_backend_agreement_counterexample :
    applyFBs (FlatBoard.Allocate 1 1 '.') [] = some (FlatBoard.Allocate 1 1 '.') ∧
    FlatBoard.Get (FlatBoard.Allocate 1 1 '.') ⟨0, 0⟩ = some '.' ∧
    M2.get (applyM2s M2.empty []) ⟨0, 0⟩ = none ∧
    FlatBoard.Get (FlatBoard.Allocate 1 1 '.') ⟨0, 0⟩ ≠
      M2.get (applyM2s M2.empty []) ⟨0, 0⟩ ∧
    FlatBoard.GetOrDefault (FlatBoard.Allocate 1 1 '.') ⟨0, 0⟩ 'x' ≠
      M2.getD (applyM2s M2.empty []) ⟨0, 0⟩ 'x' := by
  refine ⟨rfl, by decide, rfl, by decide, by decide⟩

theorem rowEntries_get (conv : Char → Char) (cf : Char → Char → Bool) (e : Char) :
    ∀ (row : List Char) (x0 y : Int) (p : Pt),
      M2.get (rowEntries conv cf e row x0 y) p =
        if p.y = y ∧ x0 ≤ p.x ∧ p.x < x0 + row.length then
          match row.get? (p.x - x0).toNat with
          | some c => if cf (conv c) e then none else some (conv c)
          | none => none
        else none := by
  intro row
  induction row with
  | nil =>
    intro x0 y p
    rw [rowEntries]
    rw [if_neg]
    · rfl
    · intro hc
      rcases hc with ⟨_, h1, h2⟩
      simp at h2
      omega
  | cons c cs ih =>
    intro x0 y p
    rw [rowEntries, M2.get_append, ih (x0 + 1) y p]
    have hlen : ((c :: cs).length : Int) = (cs.length : Int) + 1 := by simp
    have hA : M2.get (if cf (conv c) e then ([] : M2 Char)
        else [((⟨x0, y⟩ : Pt), conv c)]) p =
        if p = (⟨x0, y⟩ : Pt) ∧ ¬ cf (conv c) e then some (conv c) else none := by
      by_cases hcf : cf (conv c) e
      · simp [hcf, M2.get]
      · by_cases hp : p = (⟨x0, y⟩ : Pt)
        · simp [hcf, M2.get, hp]
        · have hne : ¬ (⟨x0, y⟩ : Pt) = p := fun hcc => hp hcc.symm
          simp [hcf, M2.get, hne, hp]
    rw [hA]
    by_cases hy : p.y = y
    · by_cases hx1 : p.x = x0
      · have hp : p = (⟨x0, y⟩ : Pt) := Pt.ext hx1 hy
        have hn0 : (p.x - x0).toNat = 0 := by omega
        have hcond : p.y = y ∧ x0 ≤ p.x ∧ p.x < x0 + ((c :: cs).length : Int) := by
          refine ⟨hy, by omega, by omega⟩
        have hneg2 : ¬ (p.y = y ∧ x0 + 1 ≤ p.x ∧ p.x < x0 + 1 + (cs.length : Int)) := by
          intro hc
          omega
        rw [if_neg hneg2, if_pos hcond, hn0, Option.or_none]
        rw [List.get?_cons_zero]
        by_cases hcf : cf (conv c) e <;> simp [hp, hcf]
      · have hp : ¬ (p = (⟨x0, y⟩ : Pt) ∧ ¬ cf (conv c) e) := by
          intro hc
          rw [hc.1] at hx1
          exact hx1 rfl
        rw [if_neg hp, Option.none_or]
        by_cases hin : x0 + 1 ≤ p.x ∧ p.x < x0 + 1 + (cs.length : Int)
        · have hcond2 : p.y = y ∧ x0 + 1 ≤ p.x ∧ p.x < x0 + 1 + (cs.length : Int) :=
            ⟨hy, hin.1, hin.2⟩
          have hcond : p.y = y ∧ x0 ≤ p.x ∧ p.x < x0 + ((c :: cs).length : Int) :=
            ⟨hy, by omega, by omega⟩
          rw [if_pos hcond2, if_pos hcond]
          have hidx : (p.x - x0).toNat = (p.x - (x0 + 1)).toNat + 1 := by omega
          rw [hidx, List.get?_cons_succ]
        · have hneg2 : ¬ (p.y = y ∧ x0 + 1 ≤ p.x ∧ p.x < x0 + 1 + (cs.length : Int)) := by
            intro hc
            exact hin ⟨hc.2.1, hc.2.2⟩
          have hneg : ¬ (p.y = y ∧ x0 ≤ p.x ∧ p.x < x0 + ((c :: cs).length : Int)) := by
            intro hc
            omega
          rw [if_neg hneg2, if_neg hneg]
    · have hp : ¬ (p = (⟨x0, y⟩ : Pt) ∧ ¬ cf (conv c) e) := by
        intro hc
        rw [hc.1] at hy
        exact hy rfl
      have hneg2 : ¬ (p.y = y ∧ x0 + 1 ≤ p.x ∧ p.x < x0 + 1 + (cs.length : Int)) :=
        fun hc => hy hc.1
      have hneg : ¬ (p.y = y ∧ x0 ≤ p.x ∧ p.x < x0 + ((c :: cs).length : Int)) :=
        fun hc => hy hc.1
      rw [if_neg hp, if_neg hneg2, if_neg hneg, Option.none_or]

theorem ingestRow_append (conv : Char → Char) (cf : Char → Char → Bool) (e : Char) :
    ∀ (row : List Char) (st : M2 Char) (x0 y : Int),
      (∀ x2 : Int, x0 ≤ x2 → M2.get st ⟨x2, y⟩ = none) →
      Board.ingestRow conv (some cf) e st row x0 y =
        some (st ++ rowEntries conv cf e row x0 y) := by
  intro row
  induction row with
  | nil =>
    intro st x0 y _
    simp [Board.ingestRow, rowEntries]
  | cons c cs ih =>
    intro st x0 y hfresh
    rw [Board.ingestRow]
    by_cases hcf : cf (conv c) e
    · rw [if_pos hcf]
      rw [ih st (x0 + 1) y (fun x2 hx2 => hfresh x2 (by omega))]
      rw [rowEntries]
      simp [hcf]
    · rw [if_neg hcf]
      have hset : M2.set st ⟨x0, y⟩ (conv c) = st ++ [((⟨x0, y⟩ : Pt), conv c)] :=
        M2.set_of_get_none (hfresh x0 (le_refl x0)) (conv c)
      rw [hset]
      rw [ih _ (x0 + 1) y ?_]
      · rw [rowEntries]
        simp [hcf]
      · intro x2 hx2
        rw [M2.get_append, hfresh x2 (by omega)]
        have hne : ¬ (⟨x0, y⟩ : Pt) = (⟨x2, y⟩ : Pt) := by
          intro hc
          have : x0 = x2 := congrArg Pt.x hc
          omega
        simp [M2.get, hne]

theorem gridEntries_get (conv : Char → Char) (cf : Char → Char → Bool) (e : Char) :
    ∀ (rs : List (List Char)) (y0 : Int) (p : Pt),
      M2.get (gridEntries conv cf e rs y0) p =
        if y0 ≤ p.y ∧ p.y < y0 + rs.length then
          match rs.get? (p.y - y0).toNat with
          | some row => M2.get (rowEntries conv cf e row 0 p.y) p
          | none => none
        else none := by
  intro rs
  induction rs with
  | nil =>
    intro y0 p
    rw [gridEntries]
    rw [if_neg]
    · rfl
    · intro hc
      rcases hc with ⟨h1, h2⟩
      simp at h2
      omega
  | cons r rs ih =>
    intro y0 p
    rw [gridEntries, M2.get_append, ih (y0 + 1) p]
    have hlen : ((r :: rs).length : Int) = (rs.length : Int) + 1 := by simp
    by_cases hy : p.y = y0
    · have hn0 : (p.y - y0).toNat = 0 := by omega
      have hcond : y0 ≤ p.y ∧ p.y < y0 + ((r :: rs).length : Int) := ⟨by omega, by omega⟩
      have hneg2 : ¬ (y0 + 1 ≤ p.y ∧ p.y < y0 + 1 + (rs.length : Int)) := by
        intro hc
        omega
      rw [if_neg hneg2, if_pos hcond, hn0, List.get?_cons_zero, Option.or_none, hy]
    · have hrow : M2.get (rowEntries conv cf e r 0 y0) p = none := by
        rw [rowEntries_get]
        rw [if_neg]
        intro hc
        exact hy hc.1
      rw [hrow, Option.none_or]
      by_cases hin : y0 + 1 ≤ p.y ∧ p.y < y0 + 1 + (rs.length : Int)
      · have hcond2 : y0 + 1 ≤ p.y ∧ p.y < y0 + 1 + (rs.length : Int) := hin
        have hcond : y0 ≤ p.y ∧ p.y < y0 + ((r :: rs).length : Int) := ⟨by omega, by omega⟩
        rw [if_pos hcond2, if_pos hcond]
        have hidx : (p.y - y0).toNat = (p.y - (y0 + 1)).toNat + 1 := by omega
        rw [hidx, List.get?_cons_succ]
      · have hneg : ¬ (y0 ≤ p.y ∧ p.y < y0 + ((r :: rs).length : Int)) := by
          intro hc
          omega
        rw [if_neg hin, if_neg hneg]

theorem ingestRows_append (conv : Char → Char) (cf : Char → Char → Bool) (e : Char)
    (w : Nat) :
    ∀ (rs : List (List Char)) (st : M2 Char) (y0 : Int),
      (∀ r ∈ rs, r.length = w) →
      (∀ q : Pt, y0 ≤ q.y → M2.get st q = none) →
      Board.ingestRows conv (some cf) e w st rs y0 =
        (.ok, st ++ gridEntries conv cf e rs y0) := by
  intro rs
  induction rs with
  | nil =>
    intro st y0 _ _
    simp [Board.ingestRows, gridEntries]
  | cons r rs ih =>
    intro st y0 huni hfresh
    have hrl : r.length = w := huni r (List.mem_cons_self _ _)
    have hrow := ingestRow_append conv cf e r st 0 y0
      (fun x2 _ => hfresh ⟨x2, y0⟩ (le_refl y0))
    rw [Board.ingestRows]
    rw [if_neg (by rw [hrl]; exact fun hc => hc rfl)]
    rw [hrow]
    show Board.ingestRows conv (some cf) e w _ rs (y0 + 1) = _
    rw [ih _ (y0 + 1) (fun c hc => huni c (List.mem_cons_of_mem _ hc)) ?_]
    · rw [gridEntries, List.append_assoc]
    · intro q hq
      rw [M2.get_append, hfresh q (by omega)]
      rw [rowEntries_get]
      rw [if_neg]
      · rfl
      · intro hc
        omega

theorem range_map_eq {α : Type} (d : α) :
    ∀ (l : List α) (f : Nat → α), (∀ i, i < l.length → f i = l.getD i d) →
      (List.range l.length).map f = l := by
  intro l
  induction l with
  | nil => intro f _; rfl
  | cons a l ih =>
    intro f hf
    rw [List.length_cons, List.range_succ_eq_map, List.map_cons, List.map_map]
    have h0 : f 0 = a := hf 0 (by simp)
    rw [h0]
    have htail : (List.range l.length).map (f ∘ Nat.succ) = l := by
      apply ih
      intro i hi
      have hstep := hf (i + 1) (by simpa using Nat.succ_lt_succ hi)
      simpa using hstep
    rw [htail]

theorem ite_tombstone (c : Char) :
    (Option.getD (if decide (c = '.') = true then none else some c) '.') = c := by
  by_cases hdot : c = '.' <;> simp [hdot]

theorem intRange_map_eq_list {α : Type} (k : Nat) (f : Int → α) (l : List α) (d : α)
    (hlen : l.length = k)
    (hval : ∀ i : Nat, i < k → f (i : Int) = l.getD i d) :
    (intRange 0 ((k : Int) - 1)).map f = l := by
  rw [intRange]
  have hk : ((k : Int) - 1 + 1 - 0).toNat = k := by omega
  rw [hk, List.map_map, ← hlen]
  apply range_map_eq d
  intro i hi
  show f (0 + (i : Int)) = l.getD i d
  rw [zero_add]
  exact hval i (by omega)

theorem orderCoords_of_ordered {r : Rect} (hx : r.p1.x ≤ r.p2.x)
    (hy : r.p1.y ≤ r.p2.y) : Rect.OrderCoords r = r := by
  rw [Rect.OrderCoords]
  rw [if_neg (by omega), if_neg (by omega)]

/-- C8 (amended): a non-empty list of equal-length rows of length at
least 1, ingested into a fresh rune board and formatted back with the
identity symbol mapping, reproduces the rows exactly. -/
theorem C8_format_roundtrip (r0 : List Char) (rs : List (List Char))
    (hw : 1 ≤ r0.length)
    (huni : ∀ r ∈ r0 :: rs, r.length = r0.length) :
    ∃ b2, Board.FromStrings runeBoardNew (r0 :: rs) = (.ok, b2) ∧
      Board.Format b2 (fun c => c) = some (r0 :: rs) := by
  have hres := ingestRows_append (fun c => c) (fun a b => decide (a = b)) '.'
    r0.length (r0 :: rs) [] 0 huni (fun q _ => rfl)
  rw [List.nil_append] at hres
  have hn1 : 1 ≤ (r0 :: rs).length := by simp
  have h1 : Board.FromStrings runeBoardNew (r0 :: rs) =
      (if (Board.ingestRows (fun c => c) (some fun a b => decide (a = b)) '.'
            r0.length [] (r0 :: rs) 0).1 = .ok then
        (.ok, { runeBoardNew with
                  storage := (Board.ingestRows (fun c => c)
                    (some fun a b => decide (a = b)) '.' r0.length [] (r0 :: rs) 0).2
                  bounds := some ⟨⟨0, 0⟩,
                    ⟨(r0.length : Int) - 1, ((r0 :: rs).length : Int) - 1⟩⟩ })
      else ((Board.ingestRows (fun c => c) (some fun a b => decide (a = b)) '.'
            r0.length [] (r0 :: rs) 0).1,
        { runeBoardNew with
            storage := (Board.ingestRows (fun c => c)
              (some fun a b => decide (a = b)) '.' r0.length [] (r0 :: rs) 0).2 })) := rfl
  rw [h1, hres]
  rw [if_pos (show (FSOut.ok,
      gridEntries (fun c => c) (fun a b => decide (a = b)) '.' (r0 :: rs) 0).1 =
      FSOut.ok from rfl)]
  refine ⟨_, rfl, ?_⟩
  have hcell : ∀ (xN yN : Nat), xN < r0.length → yN < (r0 :: rs).length →
      Board.Get { runeBoardNew with
          storage := gridEntries (fun c => c) (fun a b => decide (a = b)) '.' (r0 :: rs) 0
          bounds := some ⟨⟨0, 0⟩,
            ⟨(r0.length : Int) - 1, ((r0 :: rs).length : Int) - 1⟩⟩ }
        ⟨(xN : Int), (yN : Int)⟩ = ((r0 :: rs).getD yN []).getD xN '.' := by
    intro xN yN hx hy
    have hrowlen : ((r0 :: rs).getD yN []).length = r0.length :=
      huni _ (getD_mem _ _ hy [])
    show M2.getD (gridEntries (fun c => c) (fun a b => decide (a = b)) '.' (r0 :: rs) 0)
      ⟨(xN : Int), (yN : Int)⟩ '.' = _
    rw [M2.getD, gridEntries_get]
    rw [if_pos (show (0 : Int) ≤ (yN : Int) ∧
        (yN : Int) < 0 + ((r0 :: rs).length : Int) from by
      constructor <;> omega)]
    have hidx : (((yN : Int)) - 0).toNat = yN := by omega
    rw [hidx]
    have hrow : (r0 :: rs).get? yN = some ((r0 :: rs).getD yN []) := by
      rw [List.get?_eq_getElem?, List.getElem?_eq_getElem hy, List.getD_eq_getElem]
    simp only [hrow]
    rw [rowEntries_get]
    rw [if_pos (show ((yN : Int)) = ((yN : Int)) ∧ (0 : Int) ≤ (xN : Int) ∧
        (xN : Int) < 0 + (((r0 :: rs).getD yN []).length : Int) from by
      refine ⟨rfl, by omega, by omega⟩)]
    have hxidx : (((xN : Int)) - 0).toNat = xN := by omega
    rw [hxidx]
    have hxlt : xN < ((r0 :: rs).getD yN []).length := by omega
    have hcel : ((r0 :: rs).getD yN []).get? xN =
        some (((r0 :: rs).getD yN []).getD xN '.') := by
      rw [List.get?_eq_getElem?, List.getElem?_eq_getElem hxlt]
      exact congrArg some (List.getD_eq_getElem _ _ hxlt).symm
    simp only [hcel]
    exact ite_tombstone _
  show Board.Format _ (fun c => c) = _
  have hord : Rect.OrderCoords
      ⟨⟨0, 0⟩, ⟨(r0.length : Int) - 1, ((r0 :: rs).length : Int) - 1⟩⟩ =
      ⟨⟨0, 0⟩, ⟨(r0.length : Int) - 1, ((r0 :: rs).length : Int) - 1⟩⟩ := by
    apply orderCoords_of_ordered
    · show (0 : Int) ≤ (r0.length : Int) - 1
      omega
    · show (0 : Int) ≤ ((r0 :: rs).length : Int) - 1
      omega
  have hfmt : Board.Format { runeBoardNew with
      storage := gridEntries (fun c => c) (fun a b => decide (a = b)) '.' (r0 :: rs) 0
      bounds := some ⟨⟨0, 0⟩,
        ⟨(r0.length : Int) - 1, ((r0 :: rs).length : Int) - 1⟩⟩ } (fun c => c) =
      some ((intRange 0 (((r0 :: rs).length : Int) - 1)).map fun y =>
        (intRange 0 ((r0.length : Int) - 1)).map fun x =>
          Board.Get { runeBoardNew with
            storage := gridEntries (fun c => c) (fun a b => decide (a = b)) '.' (r0 :: rs) 0
            bounds := some ⟨⟨0, 0⟩,
              ⟨(r0.length : Int) - 1, ((r0 :: rs).length : Int) - 1⟩⟩ } ⟨x, y⟩) := by
    rw [Board.Format]
    show some _ = _
    rw [hord]
  rw [hfmt]
  refine congrArg some ?_
  apply intRange_map_eq_list ((r0 :: rs).length) _ (r0 :: rs) [] rfl
  intro i hi
  show (intRange 0 ((r0.length : Int) - 1)).map _ = (r0 :: rs).getD i []
  have hilen : ((r0 :: rs).getD i []).length = r0.length :=
    huni _ (getD_mem _ _ hi [])
  apply intRange_map_eq_list r0.length _ ((r0 :: rs).getD i []) '.' hilen
  intro j hj
  show Board.Get _ ⟨((j : Nat) : Int), ((i : Nat) : Int)⟩ = _
  exact hcell j i (by omega) hi

/-- C8 witness: the round trip at the concrete rows `ab`, `.c`. -/
theorem C8_format_roundtrip_witness :
    ∃ b2, Board.FromStrings runeBoardNew [['a', 'b'], ['.', 'c']] = (.ok, b2) ∧
      Board.Format b2 (fun c => c) = some [['a', 'b'], ['.', 'c']] :=
  C8_format_roundtrip ['a', 'b'] [['.', 'c']] (by decide) (by decide)

/-- C8 counterexample: the claim as stated admits rows of length zero.
Ingesting the single empty row succeeds, but the bounds are set to the
unordered rectangle `((0,0),(-1,0))`, which `Format` canonicalizes to a
width-2 strip: the output is `[".."]`, not the original `[""]`. -/
theorem C8_roundtrip_counterexample :
    (Board.FromStrings runeBoardNew [([] : List Char)]).1 = .ok ∧
    Board.Format (Board.FromStrings runeBoardNew [([] : List Char)]).2 (fun c => c) =
      some [['.', '.']] ∧
    Board.Format (Board.FromStrings runeBoardNew [([] : List Char)]).2 (fun c => c) ≠
      some [([] : List Char)] := by
  refine ⟨rfl, by decide, by decide⟩

theorem mem_intRange {a lo hi : Int} : a ∈ intRange lo hi ↔ lo ≤ a ∧ a ≤ hi := by
  rw [intRange]
  constructor
  · intro h
    rcases List.mem_map.mp h with ⟨i, hi2, hia⟩
    have h2 := List.mem_range.mp hi2
    rw [Int.ofNat_eq_natCast] at hia
    omega
  · intro h
    apply List.mem_map.mpr
    refine ⟨(a - lo).toNat, List.mem_range.mpr (by omega), ?_⟩
    rw [Int.ofNat_eq_natCast]
    omega

theorem mem_boundsSeq {p : Pt} {r : Rect} :
    p ∈ boundsSeq r ↔ Pt.Within p r = true := by
  rw [boundsSeq, Pt.Within, Rect.OrderCoords]
  by_cases hx : r.p1.x > r.p2.x <;> by_cases hy : r.p1.y > r.p2.y <;>
    simp only [hx, hy, if_true, if_false, List.mem_flatMap, List.mem_map,
      Bool.and_eq_true, decide_eq_true_eq] <;>
  · constructor
    · intro h
      rcases h with ⟨y, hy2, x, hx2, heq⟩
      rcases mem_intRange.mp hy2 with ⟨hy3, hy4⟩
      rcases mem_intRange.mp hx2 with ⟨hx3, hx4⟩
      have hpx : p.x = x := by rw [← heq]
      have hpy : p.y = y := by rw [← heq]
      refine ⟨⟨⟨by omega, by omega⟩, by omega⟩, by omega⟩
    · intro h
      obtain ⟨⟨⟨h1, h2⟩, h3⟩, h4⟩ := h
      exact ⟨p.y, mem_intRange.mpr ⟨by omega, by omega⟩,
        p.x, mem_intRange.mpr ⟨by omega, by omega⟩, rfl⟩

theorem contains_iff_mem_boundsSeq {V : Type} {b : Board V} {r : Rect}
    (hbnd : b.bounds = some r) (q : Pt) :
    b.Contains q = true ↔ q ∈ boundsSeq r := by
  rw [Board.Contains, hbnd, mem_boundsSeq]

theorem mem_cardinals {V : Type} {b : Board V} {p q : Pt} :
    q ∈ b.Cardinals p false ↔
      ((q = ⟨p.x + -1, p.y + 0⟩ ∨ q = ⟨p.x + 1, p.y + 0⟩ ∨
        q = ⟨p.x + 0, p.y + -1⟩ ∨ q = ⟨p.x + 0, p.y + 1⟩) ∧ b.Contains q = true) := by
  rw [Board.Cardinals]
  simp only [List.mem_filterMap, List.mem_cons, List.not_mem_nil, or_false,
    Bool.false_or]
  constructor
  · rintro ⟨d, hd, hfd⟩
    by_cases hc : b.Contains (⟨p.x + d.x, p.y + d.y⟩ : Pt) = true
    · rw [if_pos hc] at hfd
      have hq : (⟨p.x + d.x, p.y + d.y⟩ : Pt) = q := by injection hfd
      have hcq : b.Contains q = true := by rw [← hq]; exact hc
      rcases hd with h1 | h1 | h1 | h1 <;> subst h1
      · exact ⟨Or.inl hq.symm, hcq⟩
      · exact ⟨Or.inr (Or.inl hq.symm), hcq⟩
      · exact ⟨Or.inr (Or.inr (Or.inl hq.symm)), hcq⟩
      · exact ⟨Or.inr (Or.inr (Or.inr hq.symm)), hcq⟩
    · rw [if_neg hc] at hfd
      exact Option.noConfusion hfd
  · rintro ⟨hor, hcont⟩
    rcases hor with h1 | h1 | h1 | h1
    · refine ⟨⟨-1, 0⟩, Or.inl rfl, ?_⟩
      rw [if_pos (by rw [← h1]; exact hcont)]
      rw [h1]
    · refine ⟨⟨1, 0⟩, Or.inr (Or.inl rfl), ?_⟩
      rw [if_pos (by rw [← h1]; exact hcont)]
      rw [h1]
    · refine ⟨⟨0, -1⟩, Or.inr (Or.inr (Or.inl rfl)), ?_⟩
      rw [if_pos (by rw [← h1]; exact hcont)]
      rw [h1]
    · refine ⟨⟨0, 1⟩, Or.inr (Or.inr (Or.inr rfl)), ?_⟩
      rw [if_pos (by rw [← h1]; exact hcont)]
      rw [h1]

theorem regionNeighbors_subset_univ {V : Type} {b : Board V} {r : Rect}
    (hbnd : b.bounds = some r) (cmp : V → V → Bool) (p q : Pt)
    (h : q ∈ b.regionNeighbors cmp p) : q ∈ boundsSeq r := by
  rw [Board.regionNeighbors] at h
  have h2 := (List.mem_filter.mp h).1
  have h3 := (mem_cardinals.mp h2).2
  exact (contains_iff_mem_boundsSeq hbnd q).mp h3

theorem regionNeighbors_length_le {V : Type} (b : Board V) (cmp : V → V → Bool)
    (p : Pt) : (b.regionNeighbors cmp p).length ≤ 4 := by
  rw [Board.regionNeighbors]
  refine le_trans (List.length_filter_le _ _) ?_
  rw [Board.Cardinals]
  exact le_trans (List.length_filterMap_le _ _) (by simp)

theorem regionNeighbors_get_eq {V : Type} [DecidableEq V] (b : Board V) (p q : Pt)
    (h : q ∈ b.regionNeighbors (fun a c => decide (a = c)) p) :
    b.Get p = b.Get q := by
  have h2 := (List.mem_filter.mp h).2
  simpa using h2

theorem regionNeighbors_symm {V : Type} [DecidableEq V] (b : Board V) (p q : Pt)
    (h : q ∈ b.regionNeighbors (fun a c => decide (a = c)) p)
    (hp : b.Contains p = true) :
    p ∈ b.regionNeighbors (fun a c => decide (a = c)) q := by
  obtain ⟨hcard, hval⟩ := List.mem_filter.mp (by exact h)
  obtain ⟨hor, _⟩ := mem_cardinals.mp hcard
  apply List.mem_filter.mpr
  constructor
  · apply mem_cardinals.mpr
    refine ⟨?_, hp⟩
    rcases hor with h1 | h1 | h1 | h1 <;> subst h1
    · exact Or.inr (Or.inl (show p = (⟨p.x + -1 + 1, p.y + 0 + 0⟩ : Pt) from
        Pt.ext (show p.x = p.x + -1 + 1 by omega) (show p.y = p.y + 0 + 0 by omega)))
    · exact Or.inl (show p = (⟨p.x + 1 + -1, p.y + 0 + 0⟩ : Pt) from
        Pt.ext (show p.x = p.x + 1 + -1 by omega) (show p.y = p.y + 0 + 0 by omega))
    · exact Or.inr (Or.inr (Or.inr (show p = (⟨p.x + 0 + 0, p.y + -1 + 1⟩ : Pt) from
        Pt.ext (show p.x = p.x + 0 + 0 by omega) (show p.y = p.y + -1 + 1 by omega))))
    · exact Or.inr (Or.inr (Or.inl (show p = (⟨p.x + 0 + 0, p.y + 1 + -1⟩ : Pt) from
        Pt.ext (show p.x = p.x + 0 + 0 by omega) (show p.y = p.y + 1 + -1 by omega))))
  · simp only [decide_eq_true_eq] at hval ⊢
    exact hval.symm

theorem reachAdj_mem_univ {adj : Pt → List Pt} {univ : List Pt}
    (hadj : ∀ p q, q ∈ adj p → q ∈ univ) {s t : Pt}
    (h : ReachAdj adj s t) (hs : s ∈ univ) : t ∈ univ := by
  induction h with
  | refl => exact hs
  | tail _ hbc _ => exact hadj _ _ hbc

theorem reachAdj_symm {adj : Pt → List Pt} {univ : List Pt}
    (hadj : ∀ p q, q ∈ adj p → q ∈ univ)
    (hsymm : ∀ p q, q ∈ adj p → p ∈ univ → p ∈ adj q)
    {s t : Pt} (h : ReachAdj adj s t) (hs : s ∈ univ) : ReachAdj adj t s := by
  induction h with
  | refl => exact Relation.ReflTransGen.refl
  | @tail m c hab hbc ih =>
    have hm : m ∈ univ := reachAdj_mem_univ hadj hab hs
    exact Relation.ReflTransGen.head (hsymm m c hbc hm) ih

theorem reachAdj_get_eq {V : Type} [DecidableEq V] (b : Board V) {s t : Pt}
    (h : ReachAdj (b.regionNeighbors fun a c => decide (a = c)) s t) :
    b.Get s = b.Get t := by
  induction h with
  | refl => rfl
  | tail _ hbc ih => exact ih.trans (regionNeighbors_get_eq b _ _ hbc)


theorem searchAux_terminal {adj : Pt → List Pt} {start : Pt} {visited : List Pt}
    (h1 : ∀ v ∈ visited, ReachAdj adj start v)
    (h3 : ∀ v ∈ visited, ∀ w ∈ adj v, w ∈ visited)
    (h4 : start ∈ visited) :
    ∀ t, t ∈ visited ↔ ReachAdj adj start t := by
  intro t
  constructor
  · exact h1 t
  · intro ht
    induction ht with
    | refl => exact h4
    | @tail m c _ hbc ih => exact h3 m ih c hbc

theorem searchAux_spec {adj : Pt → List Pt} {univ : List Pt}
    (hadj : ∀ p q, q ∈ adj p → q ∈ univ)
    (hlen : ∀ p, (adj p).length ≤ 4) (start : Pt) :
    ∀ (fuel : Nat) (openl visited : List Pt),
      (∀ v ∈ visited, ReachAdj adj start v) →
      (∀ o ∈ openl, ReachAdj adj start o) →
      (∀ v ∈ visited, ∀ w ∈ adj v, w ∈ visited ∨ w ∈ openl) →
      (start ∈ visited ∨ start ∈ openl) →
      (∀ o ∈ openl, o ∈ univ) →
      searchMeasure univ openl visited ≤ fuel →
      ∀ t, t ∈ searchAux adj fuel openl visited ↔ ReachAdj adj start t := by
  intro fuel
  induction fuel with
  | zero =>
    intro openl visited h1 h2 h3 h4 h5 h6 t
    have hopen : openl = [] := by
      rw [searchMeasure] at h6
      cases openl with
      | nil => rfl
      | cons a l => simp only [List.length_cons] at h6; omega
    subst hopen
    rw [searchAux]
    refine searchAux_terminal h1 ?_ ?_ t
    · intro v hv w hw
      exact (h3 v hv w hw).resolve_right (fun h => absurd h (List.not_mem_nil w))
    · exact h4.resolve_right (fun h => absurd h (List.not_mem_nil start))
  | succ n ih =>
    intro openl visited h1 h2 h3 h4 h5 h6 t
    cases openl with
    | nil =>
      rw [searchAux]
      refine searchAux_terminal h1 ?_ ?_ t
      · intro v hv w hw
        exact (h3 v hv w hw).resolve_right (fun h => absurd h (List.not_mem_nil w))
      · exact h4.resolve_right (fun h => absurd h (List.not_mem_nil start))
    | cons cur rest =>
      rw [searchAux]
      by_cases hvc : cur ∈ visited
      · rw [if_pos hvc]
        refine ih rest visited h1 (fun o ho => h2 o (List.mem_cons_of_mem _ ho))
          ?_ ?_ (fun o ho => h5 o (List.mem_cons_of_mem _ ho)) ?_ t
        · intro v hv2 w hw
          rcases h3 v hv2 w hw with h | h
          · exact Or.inl h
          · rcases List.mem_cons.mp h with h7 | h7
            · exact Or.inl (h7 ▸ hvc)
            · exact Or.inr h7
        · rcases h4 with h | h
          · exact Or.inl h
          · rcases List.mem_cons.mp h with h7 | h7
            · exact Or.inl (h7 ▸ hvc)
            · exact Or.inr h7
        · rw [searchMeasure] at h6 ⊢
          simp only [List.length_cons] at h6
          omega
      · rw [if_neg hvc]
        have hcuru : cur ∈ univ := h5 cur (List.mem_cons_self _ _)
        have hreach : ReachAdj adj start cur := h2 cur (List.mem_cons_self _ _)
        have i1 : ∀ v ∈ visited ++ [cur], ReachAdj adj start v := by
          intro v hv2
          rcases List.mem_append.mp hv2 with h | h
          · exact h1 v h
          · rw [List.mem_singleton.mp h]
            exact hreach
        have i2 : ∀ o ∈ rest ++ (adj cur).filter (fun q => decide (¬ q ∈ visited ++ [cur])),
            ReachAdj adj start o := by
          intro o ho
          rcases List.mem_append.mp ho with h | h
          · exact h2 o (List.mem_cons_of_mem _ h)
          · exact Relation.ReflTransGen.tail hreach (List.mem_filter.mp h).1
        have i3 : ∀ v ∈ visited ++ [cur], ∀ w ∈ adj v,
            w ∈ visited ++ [cur] ∨
              w ∈ rest ++ (adj cur).filter (fun q => decide (¬ q ∈ visited ++ [cur])) := by
          intro v hv2 w hw
          rcases List.mem_append.mp hv2 with h | h
          · rcases h3 v h w hw with h7 | h7
            · exact Or.inl (List.mem_append_left _ h7)
            · rcases List.mem_cons.mp h7 with h8 | h8
              · exact Or.inl (List.mem_append_right _ (by rw [h8]; exact List.mem_singleton_self _))
              · exact Or.inr (List.mem_append_left _ h8)
          · have hvcur : v = cur := List.mem_singleton.mp h
            subst hvcur
            by_cases hwv : w ∈ visited ++ [v]
            · exact Or.inl hwv
            · refine Or.inr (List.mem_append_right _ ?_)
              exact List.mem_filter.mpr ⟨hw, by simpa using hwv⟩
        have i4 : start ∈ visited ++ [cur] ∨
            start ∈ rest ++ (adj cur).filter (fun q => decide (¬ q ∈ visited ++ [cur])) := by
          rcases h4 with h | h
          · exact Or.inl (List.mem_append_left _ h)
          · rcases List.mem_cons.mp h with h7 | h7
            · exact Or.inl (List.mem_append_right _ (by rw [h7]; exact List.mem_singleton_self _))
            · exact Or.inr (List.mem_append_left _ h7)
        have i5 : ∀ o ∈ rest ++ (adj cur).filter (fun q => decide (¬ q ∈ visited ++ [cur])),
            o ∈ univ := by
          intro o ho
          rcases List.mem_append.mp ho with h | h
          · exact h5 o (List.mem_cons_of_mem _ h)
          · exact hadj cur o (List.mem_filter.mp h).1
        have i6 : searchMeasure univ
            (rest ++ (adj cur).filter (fun q => decide (¬ q ∈ visited ++ [cur])))
            (visited ++ [cur]) ≤ n := by
          rw [searchMeasure] at h6 ⊢
          rcases List.append_of_mem hcuru with ⟨s1, s2, hsplit⟩
          rw [hsplit] at h6 ⊢
          rw [List.countP_append, List.countP_cons] at h6
          rw [List.countP_append, List.countP_cons]
          have hmono1 : s1.countP (fun p => decide (¬ p ∈ visited ++ [cur])) ≤
              s1.countP (fun p => decide (¬ p ∈ visited)) := by
            apply List.countP_mono_left
            intro a _
            simp only [decide_eq_true_eq]
            intro hna hcontra
            exact hna (List.mem_append_left _ hcontra)
          have hmono2 : s2.countP (fun p => decide (¬ p ∈ visited ++ [cur])) ≤
              s2.countP (fun p => decide (¬ p ∈ visited)) := by
            apply List.countP_mono_left
            intro a _
            simp only [decide_eq_true_eq]
            intro hna hcontra
            exact hna (List.mem_append_left _ hcontra)
          have hcv : (if decide (¬ cur ∈ visited) = true then 1 else 0) = 1 := by
            simp [hvc]
          have hcn : (if decide (¬ cur ∈ visited ++ [cur]) = true then 1 else 0) = 0 := by
            simp
          have hflen : ((adj cur).filter (fun q => decide (¬ q ∈ visited ++ [cur]))).length ≤ 4 :=
            le_trans (List.length_filter_le _ _) (hlen cur)
          simp only [List.length_append, List.length_cons] at h6 ⊢
          omega
        exact ih _ _ i1 i2 i3 i4 i5 i6 t

theorem search_spec {adj : Pt → List Pt} {univ : List Pt}
    (hadj : ∀ p q, q ∈ adj p → q ∈ univ)
    (hlen : ∀ p, (adj p).length ≤ 4)
    {start : Pt} (hstart : start ∈ univ) {fuel : Nat}
    (hfuel : 5 * univ.length + 1 ≤ fuel) :
    ∀ t, t ∈ searchAux adj fuel [start] [] ↔ ReachAdj adj start t := by
  refine searchAux_spec hadj hlen start fuel [start] [] ?_ ?_ ?_ ?_ ?_ ?_
  · intro v hv
    exact absurd hv (List.not_mem_nil v)
  · intro o ho
    rw [List.mem_singleton.mp ho]
    exact Relation.ReflTransGen.refl
  · intro v hv
    exact absurd hv (List.not_mem_nil v)
  · exact Or.inr (List.mem_singleton_self _)
  · intro o ho
    rw [List.mem_singleton.mp ho]
    exact hstart
  · rw [searchMeasure]
    have hc : univ.countP (fun p => decide (¬ p ∈ ([] : List Pt))) = univ.length := by
      refine List.countP_eq_length.mpr ?_
      intro a _
      simp
    rw [hc]
    simpa using hfuel

theorem regStep_inv {V : Type} [DecidableEq V] {b : Board V} {r : Rect}
    (hbnd : b.bounds = some r) (incl : Bool) {fuel : Nat}
    (hfuel : 5 * (boundsSeq r).length + 1 ≤ fuel)
    (acc : List Pt × List (List Pt)) (p : Pt) (hp : p ∈ boundsSeq r)
    (hinv : regionsInv b r incl acc) :
    regionsInv b r incl (Board.regStep b incl (fun a c => decide (a = c)) fuel acc p) ∧
    (∀ x ∈ acc.1, x ∈ (Board.regStep b incl (fun a c => decide (a = c)) fuel acc p).1) ∧
    (Qualifies b r incl p →
      p ∈ (Board.regStep b incl (fun a c => decide (a = c)) fuel acc p).1) := by
  obtain ⟨inv1, inv2, inv3⟩ := hinv
  by_cases h1 : p ∈ acc.1
  · have he : Board.regStep b incl (fun a c => decide (a = c)) fuel acc p = acc := by
      rw [Board.regStep, if_pos h1]
    rw [he]
    exact ⟨⟨inv1, inv2, inv3⟩, fun x hx => hx, fun _ => h1⟩
  · by_cases h2 : ((!incl) && decide (b.Get p = b.emptyVal)) = true
    · have he : Board.regStep b incl (fun a c => decide (a = c)) fuel acc p = acc := by
        rw [Board.regStep, if_neg h1, if_pos h2]
      rw [he]
      refine ⟨⟨inv1, inv2, inv3⟩, fun x hx => hx, ?_⟩
      intro hQ
      exfalso
      have h2x : incl = false ∧ b.Get p = b.emptyVal := by
        simpa using h2
      rcases hQ.2 with h | h
      · rw [h] at h2x
        exact Bool.noConfusion h2x.1
      · exact h h2x.2
    · have he : Board.regStep b incl (fun a c => decide (a = c)) fuel acc p =
          (acc.1 ++ b.Search p (b.regionNeighbors fun a c => decide (a = c)) fuel,
           acc.2 ++ [b.Search p (b.regionNeighbors fun a c => decide (a = c)) fuel]) := by
        rw [Board.regStep, if_neg h1, if_neg h2]
      rw [he]
      have hQp : Qualifies b r incl p := by
        refine ⟨hp, ?_⟩
        cases hincl : incl with
        | true => exact Or.inl rfl
        | false =>
          refine Or.inr ?_
          intro hev
          apply h2
          rw [hincl]
          simp [hev]
      have hadj : ∀ a q, q ∈ b.regionNeighbors (fun a c => decide (a = c)) a →
          q ∈ boundsSeq r :=
        fun a q hq => regionNeighbors_subset_univ hbnd _ a q hq
      have hlen : ∀ a, (b.regionNeighbors (fun a c => decide (a = c)) a).length ≤ 4 :=
        fun a => regionNeighbors_length_le b _ a
      have hchar : ∀ t,
          t ∈ b.Search p (b.regionNeighbors fun a c => decide (a = c)) fuel ↔
            ReachAdj (b.regionNeighbors fun a c => decide (a = c)) p t :=
        search_spec hadj hlen hp hfuel
      refine ⟨⟨?_, ?_, ?_⟩, ?_, ?_⟩
      · intro x
        simp only [List.mem_append, List.mem_singleton]
        constructor
        · rintro (hx | hx)
          · obtain ⟨rg, hrg, hxr⟩ := (inv1 x).mp hx
            exact ⟨rg, Or.inl hrg, hxr⟩
          · exact ⟨_, Or.inr rfl, hx⟩
        · rintro ⟨rg, hrg | hrg, hxr⟩
          · exact Or.inl ((inv1 x).mpr ⟨rg, hrg, hxr⟩)
          · exact Or.inr (hrg ▸ hxr)
      · intro rg hrg
        rcases List.mem_append.mp hrg with h | h
        · exact inv2 rg h
        · refine ⟨p, hQp, ?_⟩
          rw [List.mem_singleton.mp h]
          exact hchar
      · rw [List.pairwise_append]
        refine ⟨inv3,
          List.Pairwise.cons (fun u hu => absurd hu (List.not_mem_nil u)) List.Pairwise.nil,
          ?_⟩
        intro rg hrg rg2 hrg2 x hxrg hxrg2
        rw [List.mem_singleton.mp hrg2] at hxrg2
        obtain ⟨s, hQs, hcs⟩ := inv2 rg hrg
        have hsx : ReachAdj (b.regionNeighbors fun a c => decide (a = c)) s x :=
          (hcs x).mp hxrg
        have hpx : ReachAdj (b.regionNeighbors fun a c => decide (a = c)) p x :=
          (hchar x).mp hxrg2
        have hsymm : ∀ a q, q ∈ b.regionNeighbors (fun a c => decide (a = c)) a →
            a ∈ boundsSeq r → a ∈ b.regionNeighbors (fun a c => decide (a = c)) q :=
          fun a q hq ha =>
            regionNeighbors_symm b a q hq ((contains_iff_mem_boundsSeq hbnd a).mpr ha)
        have hxp : ReachAdj (b.regionNeighbors fun a c => decide (a = c)) x p :=
          reachAdj_symm hadj hsymm hpx hp
        have hsp : ReachAdj (b.regionNeighbors fun a c => decide (a = c)) s p :=
          Relation.ReflTransGen.trans hsx hxp
        exact h1 ((inv1 p).mpr ⟨rg, hrg, (hcs p).mpr hsp⟩)
      · exact fun x hx => List.mem_append_left _ hx
      · exact fun _ => List.mem_append_right _ ((hchar p).mpr Relation.ReflTransGen.refl)

theorem findRegions_fold {V : Type} [DecidableEq V] {b : Board V} {r : Rect}
    (hbnd : b.bounds = some r) (incl : Bool) {fuel : Nat}
    (hfuel : 5 * (boundsSeq r).length + 1 ≤ fuel) :
    ∀ (todo : List Pt) (acc : List Pt × List (List Pt)),
      (∀ p ∈ todo, p ∈ boundsSeq r) →
      regionsInv b r incl acc →
      regionsInv b r incl
          (todo.foldl (Board.regStep b incl (fun a c => decide (a = c)) fuel) acc) ∧
      (∀ x ∈ acc.1,
        x ∈ (todo.foldl (Board.regStep b incl (fun a c => decide (a = c)) fuel) acc).1) ∧
      (∀ p ∈ todo, Qualifies b r incl p →
        p ∈ (todo.foldl (Board.regStep b incl (fun a c => decide (a = c)) fuel) acc).1) := by
  intro todo
  induction todo with
  | nil =>
    intro acc hsub hinv
    exact ⟨hinv, fun x hx => hx, fun p hp => absurd hp (List.not_mem_nil p)⟩
  | cons p todo ih =>
    intro acc hsub hinv
    rw [List.foldl_cons]
    obtain ⟨hinv1, hmono1, hcov1⟩ :=
      regStep_inv hbnd incl hfuel acc p (hsub p (List.mem_cons_self _ _)) hinv
    obtain ⟨hinv2, hmono2, hcov2⟩ :=
      ih (Board.regStep b incl (fun a c => decide (a = c)) fuel acc p)
        (fun q hq => hsub q (List.mem_cons_of_mem _ hq)) hinv1
    refine ⟨hinv2, fun x hx => hmono2 x (hmono1 x hx), ?_⟩
    intro q hq hQ
    rcases List.mem_cons.mp hq with h | h
    · subst h
      exact hmono2 q (hcov1 hQ)
    · exact hcov2 q h hQ

theorem countP_eq_one_of_pairwise {A : Type} [DecidableEq A] :
    ∀ (regs : List (List A)),
      List.Pairwise (fun r1 r2 => ∀ x, x ∈ r1 → ¬ x ∈ r2) regs →
      ∀ reg ∈ regs, ∀ p ∈ reg,
        regs.countP (fun rg => decide (p ∈ rg)) = 1 := by
  intro regs
  induction regs with
  | nil =>
    intro _ reg hreg
    exact absurd hreg (List.not_mem_nil reg)
  | cons a l ih =>
    intro hpair reg hreg p hp
    obtain ⟨hhead, htail⟩ := List.pairwise_cons.mp hpair
    rw [List.countP_cons]
    rcases List.mem_cons.mp hreg with h | h
    · subst h
      have hz : l.countP (fun rg => decide (p ∈ rg)) = 0 := by
        refine List.countP_eq_zero.mpr ?_
        intro rg hrg
        simp only [decide_eq_true_eq]
        exact fun hpin => hhead rg hrg p hp hpin
      rw [hz]
      simp [hp]
    · have hz : ¬ p ∈ a := fun hpa => hhead reg h p hpa hp
      rw [ih htail reg h p hp]
      simp [hz]

/-- C6 (amended): for a board whose `compFunc` is value equality and whose
bounds are set, `FindRegions` partitions the qualifying points — the
in-bounds points, restricted to non-empty values unless
`includeEmptyVal` — into regions: every qualifying point lies in exactly
one returned region, every region member is a qualifying point, and any
two members of one region are joined by a chain of in-bounds,
equal-valued cardinal steps.  (The frozen claim's "every populated
point" is not covered when a populated point lies outside the bounds;
see the counterexample.) -/
theorem C6_find_regions_partition {V : Type} [DecidableEq V] {b : Board V}
    {r : Rect} {incl : Bool} {regs : List (List Pt)}
    (hcomp : b.compFunc = some (fun a c => decide (a = c)))
    (hbnd : b.bounds = some r)
    (hres : b.FindRegions incl = some regs) :
    (∀ p, Qualifies b r incl p → regs.countP (fun rg => decide (p ∈ rg)) = 1) ∧
    (∀ reg ∈ regs, ∀ p ∈ reg, Qualifies b r incl p) ∧
    (∀ reg ∈ regs, ∀ p ∈ reg, ∀ q ∈ reg,
      ReachAdj (b.regionNeighbors fun a c => decide (a = c)) p q) := by
  simp only [Board.FindRegions, hcomp, hbnd, Option.some.injEq] at hres
  have hregs : regs =
      ((boundsSeq r).foldl
        (Board.regStep b incl (fun a c => decide (a = c)) (5 * (boundsSeq r).length + 5))
        (([] : List Pt), ([] : List (List Pt)))).2 :=
    hres.symm
  subst hregs
  have hfuel : 5 * (boundsSeq r).length + 1 ≤ 5 * (boundsSeq r).length + 5 := by omega
  have hinv0 : regionsInv b r incl (([] : List Pt), ([] : List (List Pt))) := by
    refine ⟨?_, ?_, List.Pairwise.nil⟩
    · intro x
      simp
    · intro reg hreg
      exact absurd hreg (List.not_mem_nil reg)
  obtain ⟨⟨j1, j2, j3⟩, _, jcov⟩ :=
    findRegions_fold hbnd incl hfuel (boundsSeq r)
      (([] : List Pt), ([] : List (List Pt))) (fun q hq => hq) hinv0
  have hadj : ∀ a q, q ∈ b.regionNeighbors (fun a c => decide (a = c)) a →
      q ∈ boundsSeq r :=
    fun a q hq => regionNeighbors_subset_univ hbnd _ a q hq
  have hsymm : ∀ a q, q ∈ b.regionNeighbors (fun a c => decide (a = c)) a →
      a ∈ boundsSeq r → a ∈ b.regionNeighbors (fun a c => decide (a = c)) q :=
    fun a q hq ha =>
      regionNeighbors_symm b a q hq ((contains_iff_mem_boundsSeq hbnd a).mpr ha)
  refine ⟨?_, ?_, ?_⟩
  · intro p hQ
    obtain ⟨rg, hrg, hprg⟩ := (j1 p).mp (jcov p hQ.1 hQ)
    exact countP_eq_one_of_pairwise _ j3 rg hrg p hprg
  · intro reg hreg p hp
    obtain ⟨s, hQs, hcs⟩ := j2 reg hreg
    have hsp := (hcs p).mp hp
    refine ⟨reachAdj_mem_univ hadj hsp hQs.1, ?_⟩
    rcases hQs.2 with h | h
    · exact Or.inl h
    · refine Or.inr ?_
      have hval : b.Get s = b.Get p := reachAdj_get_eq b hsp
      rw [← hval]
      exact h
  · intro reg hreg p hp q hq
    obtain ⟨s, hQs, hcs⟩ := j2 reg hreg
    have hsp := (hcs p).mp hp
    have hsq := (hcs q).mp hq
    have hps := reachAdj_symm hadj hsymm hsp hQs.1
    exact Relation.ReflTransGen.trans hps hsq

/-- C6 witness: the partition property at the spec's two-region AAB/ABB
example board with `includeEmptyVal = false`. -/
theorem C6_find_regions_partition_witness :
    (∀ p, Qualifies c6Board ⟨⟨0, 0⟩, ⟨2, 1⟩⟩ false p →
      ((c6Board.FindRegions false).getD []).countP (fun rg => decide (p ∈ rg)) = 1) ∧
    (∀ reg ∈ (c6Board.FindRegions false).getD [], ∀ p ∈ reg,
      Qualifies c6Board ⟨⟨0, 0⟩, ⟨2, 1⟩⟩ false p) ∧
    (∀ reg ∈ (c6Board.FindRegions false).getD [], ∀ p ∈ reg, ∀ q ∈ reg,
      ReachAdj (c6Board.regionNeighbors fun a c => decide (a = c)) p q) :=
  C6_find_regions_partition rfl rfl rfl

/-- C6 counterexample to the frozen claim: `FindRegions` only walks the
bounds, so a populated point outside them lies in no returned region.  On
a board whose single populated cell `(5,5)` holds 'A' (distinct from the
empty value) but whose bounds are `(0,0)-(0,0)`, `FindRegions false`
returns no regions at all. -/
theorem C6_out_of_bounds_counterexample :
    M2.get c6OutBoard.storage ⟨5, 5⟩ = some 'A' ∧
    c6OutBoard.emptyVal ≠ 'A' ∧
    c6OutBoard.FindRegions false = some [] := by
  refine ⟨rfl, by decide, rfl⟩


end AdventUtils
